import Mathlib

/-!
Verification of the monthly creative-work declaration generator
(`src/main.rs`).  The Rust program is shallowly embedded: Rust `String`
becomes `List Char`, `chrono::NaiveDate` becomes an unbounded proleptic
Gregorian date record, `DateTime<Utc>` becomes its epoch-millisecond
value, fallible operations (`unwrap`, `expect`, serde decoding) return
`Option`/`Except` with `none`/`.error` in place of a panic or decode
error, and `str::replace` becomes an executable left-to-right
non-overlapping scan (`replaceList`).
-/

set_option maxRecDepth 20000
set_option maxHeartbeats 3200000

namespace Kuper

/-! ## Strings: `str::replace` as a left-to-right non-overlapping scan -/

/-- Fuel-indexed worker for `replaceList`.  At each position it tests
whether the (nonempty) pattern is a prefix; on a match it emits the
replacement and jumps past the matched pattern, otherwise it emits one
character and moves on.  This matches Rust's `str::replace`, which walks
the `match_indices` of the pattern (non-overlapping, left to right).
Fuel only has to dominate the length of the string. -/
def replaceGo (pat repl : List Char) : Nat → List Char → List Char
  | _, [] => []
  | 0, s => s
  | Nat.succ fuel, c :: s =>
    if pat.isPrefixOf (c :: s) ∧ pat ≠ [] then
      repl ++ replaceGo pat repl fuel ((c :: s).drop pat.length)
    else
      c :: replaceGo pat repl fuel s

/-- Embedding of Rust `str::replace(pat, repl)` for a nonempty literal
pattern (the program only ever replaces the nonempty literals `"|"`,
`"{prs}"`, `"{month}"`, `"{percent_creative}"`, `"{last_day_of_month}"`). -/
def replaceList (pat repl s : List Char) : List Char :=
  replaceGo pat repl s.length s

/-! ## Decimal formatting (Rust `Display` for integers, chrono padding) -/

/-- Character for a decimal digit value. -/
def digitChar (n : Nat) : Char := Char.ofNat (48 + n)

/-- Fuel-indexed decimal digit expansion (most significant first). -/
def natToCharsGo : Nat → Nat → List Char
  | 0, n => [digitChar n]
  | Nat.succ fuel, n =>
    if n < 10 then [digitChar n] else natToCharsGo fuel (n / 10) ++ [digitChar (n % 10)]

/-- Decimal representation of a natural number, as `Display` prints it. -/
def natToChars (n : Nat) : List Char := natToCharsGo n n

/-- Embedding of Rust `i32::to_string` (`Display`): optional minus sign
followed by decimal digits. -/
def intToChars (i : Int) : List Char :=
  if i < 0 then '-' :: natToChars (-i).toNat else natToChars i.toNat

/-- Left-pad a decimal expansion with zeros to a given width
(chrono `Pad::Zero`). -/
def padZero (w n : Nat) : List Char :=
  List.replicate (w - (natToChars n).length) '0' ++ natToChars n

/-- Embedding of chrono's `%Y`: the year zero-padded to 4 digits, with a
sign when the year lies outside `0..=9999`. -/
def formatYear (y : Int) : List Char :=
  if y < 0 then '-' :: padZero 4 (-y).toNat
  else if 9999 < y then '+' :: padZero 4 y.toNat
  else padZero 4 y.toNat

/-! ## Dates: `chrono::NaiveDate` as unbounded proleptic Gregorian -/

/-- Embedding of `chrono::NaiveDate` as a plain year/month/day record.
chrono's finite year range (−262144..=262143) is modelled separately via
the timestamp bounds; calendar arithmetic itself is unbounded. -/
structure NaiveDate where
  year : Int
  month : Nat
  day : Nat
deriving DecidableEq, Repr

/-- Gregorian leap-year rule. -/
def isLeapYear (y : Int) : Bool := y % 4 == 0 && (y % 100 != 0 || y % 400 == 0)

/-- Number of days in a month of a given year. -/
def daysInMonth (y : Int) (m : Nat) : Nat :=
  if m = 2 then (if isLeapYear y then 29 else 28)
  else if m = 4 ∨ m = 6 ∨ m = 9 ∨ m = 11 then 30
  else 31

/-- Validity of a year/month/day triple as a calendar date. -/
def ValidDate (d : NaiveDate) : Prop :=
  1 ≤ d.month ∧ d.month ≤ 12 ∧ 1 ≤ d.day ∧ d.day ≤ daysInMonth d.year d.month

instance : DecidablePred ValidDate := fun d => by unfold ValidDate; infer_instance

/-- Embedding of `NaiveDate::from_ymd_opt`: `some` exactly on valid
calendar dates. -/
def from_ymd_opt (y : Int) (m d : Nat) : Option NaiveDate :=
  if ValidDate ⟨y, m, d⟩ then some ⟨y, m, d⟩ else none

/-- Embedding of `NaiveDate::pred_opt`, the previous calendar day.  In
chrono this is `none` only at `NaiveDate::MIN`; the unbounded model
always succeeds. -/
def pred_opt (d : NaiveDate) : Option NaiveDate :=
  if 2 ≤ d.day then some ⟨d.year, d.month, d.day - 1⟩
  else if 2 ≤ d.month then some ⟨d.year, d.month - 1, daysInMonth d.year (d.month - 1)⟩
  else some ⟨d.year - 1, 12, 31⟩

/-! ## Epoch-millisecond timestamps (`DateTime<Utc>`) -/

/-- Days from the civil epoch 1970-01-01 to a Gregorian date
(Howard Hinnant's `days_from_civil`; chrono's conversions agree with it
on the proleptic Gregorian calendar). -/
def daysFromCivil (y : Int) (m d : Nat) : Int :=
  let y' : Int := if m ≤ 2 then y - 1 else y
  let era : Int := y'.ediv 400
  let yoe : Nat := (y' - era * 400).toNat
  let mp : Nat := if 2 < m then m - 3 else m + 9
  let doy : Nat := (153 * mp + 2) / 5 + d - 1
  let doe : Nat := yoe * 365 + yoe / 4 - yoe / 100 + doy
  era * 146097 + (doe : Int) - 719468

/-- Gregorian date of a day offset from 1970-01-01
(Howard Hinnant's `civil_from_days`). -/
def civilFromDays (z : Int) : NaiveDate :=
  let z' : Int := z + 719468
  let era : Int := z'.ediv 146097
  let doe : Nat := (z' - era * 146097).toNat
  let yoe : Nat := (doe - doe / 1460 + doe / 36524 - doe / 146096) / 365
  let y : Int := (yoe : Int) + era * 400
  let doy : Nat := doe - (365 * yoe + yoe / 4 - yoe / 100)
  let mp : Nat := (5 * doy + 2) / 153
  let d : Nat := doy - (153 * mp + 2) / 5 + 1
  if mp < 10 then ⟨y, mp + 3, d⟩ else ⟨y + 1, mp - 9, d⟩

/-- Smallest epoch-millisecond value chrono accepts
(midnight of `NaiveDate::MIN`, −262144-01-01). -/
def minTimestampMs : Int := 86400000 * daysFromCivil (-262144) 1 1

/-- Largest epoch-millisecond value chrono accepts
(last millisecond of `NaiveDate::MAX`, 262143-12-31). -/
def maxTimestampMs : Int := 86400000 * daysFromCivil 262143 12 31 + 86399999

/-- Embedding of `parse_timestamp` (src/main.rs:8-12):
`Utc.timestamp_millis_opt(ms).single()` succeeds exactly when the
millisecond count corresponds to a calendar instant in chrono's
supported range, and then denotes exactly that instant (no clamping or
wrapping); the `.expect("Invalid timestamp")` panic is modelled as
`none`. -/
def parse_timestamp (ms : Int) : Option Int :=
  if minTimestampMs ≤ ms ∧ ms ≤ maxTimestampMs then some ms else none

/-- Embedding of chrono's `%d.%m.%Y` formatting of a `DateTime<Utc>`:
the UTC calendar date of the instant, day and month zero-padded to two
digits. -/
def formatTimestampDMY (ms : Int) : List Char :=
  let d := civilFromDays (ms.ediv 86400000)
  padZero 2 d.day ++ ['.'] ++ padZero 2 d.month ++ ['.'] ++ formatYear d.year

/-- Formatting `%d.%m.%Y` of a `NaiveDate`. -/
def formatDMY (d : NaiveDate) : List Char :=
  padZero 2 d.day ++ ['.'] ++ padZero 2 d.month ++ ['.'] ++ formatYear d.year

/-- Formatting `%m.%Y` of a `NaiveDate`. -/
def formatMY (d : NaiveDate) : List Char :=
  padZero 2 d.month ++ ['.'] ++ formatYear d.year

/-! ## Data model (src/main.rs:23-70) -/

/-- Embedding of `struct Project` — the project's short key. -/
structure Project where
  key : List Char
deriving DecidableEq, Repr

/-- Embedding of `enum ReviewState`. -/
inductive ReviewState where
  | Opened
  | Closed
  | Deleted
deriving DecidableEq, Repr

/-- Embedding of `struct Review`.  `created_at` holds the decoded
`DateTime<Utc>` as its epoch-millisecond value. -/
structure Review where
  number : Int
  title : List Char
  state : ReviewState
  project : Project
  created_at : Int
deriving DecidableEq, Repr

/-! ## Serde decoding of the API response (value-level part)

The JSON shape `{ data: [ { review: {...} } ] }` is modelled after
structural unwrapping: a raw record carries the five requested fields
with `state` still a string token and `createdAt` still a raw
millisecond number.  Decoding each record can fail (unknown state
variant, or the modelled `parse_timestamp` panic); serde decodes the
elements in order and the first failure aborts the whole response. -/

/-- Raw review record, after JSON shape matching but before value
decoding. -/
structure RawReview where
  number : Int
  title : List Char
  state : List Char
  projectKey : List Char
  createdAt : Int
deriving DecidableEq, Repr

/-- Decoding of the `ReviewState` field: serde's derived deserializer
with `rename_all = "PascalCase"` accepts exactly the three case-sensitive
tokens. -/
def decodeState (s : List Char) : Option ReviewState :=
  if s = "Opened".data then some ReviewState.Opened
  else if s = "Closed".data then some ReviewState.Closed
  else if s = "Deleted".data then some ReviewState.Deleted
  else none

/-- Decoding of one raw record into a `Review`.  An unknown state token
is a serde decode error; an out-of-range timestamp hits the
`expect("Invalid timestamp")` panic inside `deserialize_timestamp`,
modelled as an error as well. -/
def decodeReview (r : RawReview) : Except (List Char) Review :=
  match decodeState r.state with
  | none => Except.error ("unknown variant for ReviewState".data)
  | some st =>
    match parse_timestamp r.createdAt with
    | none => Except.error ("panic: Invalid timestamp".data)
    | some ts =>
      Except.ok ⟨r.number, r.title, st, ⟨r.projectKey⟩, ts⟩

/-- Decoding of the whole response body: every element must decode, the
first failure aborts (`serde_json::from_str` has no partial-success
mode). -/
def decodeResponse (rs : List RawReview) : Except (List Char) (List Review) :=
  match rs with
  | [] => Except.ok []
  | r :: rest =>
    match decodeReview r with
    | Except.error e => Except.error e
    | Except.ok v =>
      match decodeResponse rest with
      | Except.error e => Except.error e
      | Except.ok vs => Except.ok (v :: vs)

/-! ## Date-range computation of `fetch_prs_for_month` (src/main.rs:80-87) -/

/-- Embedding of the pure date-range computation at the start of
`fetch_prs_for_month`: `start_date` is the first of the month of the
given date, `end_date` is the predecessor of the first of the next
month, with `from_ymd_opt(year, month + 1, 1)` falling back to
January 1 of the next year.  The `unwrap`s are modelled as `Option`
propagation. -/
def fetch_prs_for_month_range (date : NaiveDate) : Option (NaiveDate × NaiveDate) := do
  let s ← from_ymd_opt date.year date.month 1
  let n ← (from_ymd_opt date.year (date.month + 1) 1 <|> from_ymd_opt (date.year + 1) 1 1)
  let e ← pred_opt n
  pure (s, e)

/-- Embedding of `last_day_of_month` (src/main.rs:112-122). -/
def last_day_of_month (date : NaiveDate) : Option NaiveDate := do
  let next_month := if date.month = 12 then 1 else date.month + 1
  let next_month_year := if date.month = 12 then date.year + 1 else date.year
  let n ← from_ymd_opt next_month_year next_month 1
  pred_opt n

/-- Embedding of `previous_month` (src/main.rs:203-209), with the impure
`Utc::now()` date supplied as the argument: day 1 of the current month,
stepped back one day. -/
def previous_month (now : NaiveDate) : Option NaiveDate := do
  let d ← from_ymd_opt now.year now.month 1
  pred_opt d

/-! ## Row rendering (src/main.rs:148-168) -/

/-- Display label of the `status` match inside `render_pr`
(`Deleted` never reaches the row, its label is irrelevant junk). -/
def statusLabel : ReviewState → List Char
  | ReviewState.Opened => "Unfinished".data
  | ReviewState.Closed => "Finished".data
  | ReviewState.Deleted => []

/-- The browsable URL built by `render_pr`. -/
def reviewUrl (pr : Review) (domain : List Char) : List Char :=
  "https://".data ++ domain ++ "/p/".data ++ pr.project.key ++
    "/reviews/".data ++ intToChars pr.number

/-- The table row text built by `render_pr` for a surviving entry:
index, pipe-escaped title, author, markdown link (URL as label and
target), status label, and `%d.%m.%Y` creation date. -/
def rowString (idx : Int) (pr : Review) (domain author : List Char) : List Char :=
  "| ".data ++ intToChars idx ++ " | ".data ++
    replaceList "|".data "\\|".data pr.title ++ " | ".data ++ author ++
    " | ".data ++
    ("[".data ++ reviewUrl pr domain ++ "](".data ++ reviewUrl pr domain ++ ")".data) ++
    " | ".data ++ statusLabel pr.state ++ " | ".data ++
    formatTimestampDMY pr.created_at ++ " |".data

/-- Embedding of `render_pr`: `none` exactly for `Deleted` entries
(the `Deleted => return None` arm of the `status` match), otherwise the
markdown table row. -/
def render_pr (idx : Int) (pr : Review) (domain author : List Char) :
    Option (List Char) :=
  match pr.state with
  | ReviewState.Deleted => none
  | ReviewState.Opened => some (rowString idx pr domain author)
  | ReviewState.Closed => some (rowString idx pr domain author)

/-- Rows produced inside `render_template`:
`prs.iter().enumerate().filter_map(|(idx, pr)| render_pr(idx as i32 + 1, pr, ...))`.
Note the index is the position in the original list, assigned before
`filter_map` drops `Deleted` entries. -/
def renderRows (prs : List Review) (domain author : List Char) : List (List Char) :=
  prs.enum.filterMap (fun p => render_pr (Int.ofNat p.1 + 1) p.2 domain author)

/-- Embedding of `Vec::join("\n")`. -/
def joinNL : List (List Char) → List Char
  | [] => []
  | [r] => r
  | r :: rs => r ++ '\n' :: joinNL rs

/-! ## The template (src/main.rs:170-201)

The `TEMPLATE` raw string literal is transcribed verbatim, split exactly
at its seven placeholder-token occurrences (`{last_day_of_month}` twice,
`{month}` once, `{prs}` once, `{percent_creative}` three times, in that
source order); `TEMPLATE` below is the concatenation of the eight
placeholder-free segments with those tokens re-inserted in place, which
is character-for-character the source constant.  (The split keeps every
string the proofs evaluate short.)  U+2019 is written as an escape. -/

/-- Template segment before the first `{last_day_of_month}`. -/
def tmplSeg0 : String :=
  "\n---\ntitle: \"Formularz rejestracji czasu pracy twórczej\"\nauthor: \"JetBrains Poland sp. z o.o.\"\ndate: \""

/-- Template segment between the two `{last_day_of_month}` occurrences. -/
def tmplSeg1 : String :=
  "\"\ngeometry: a4paper,landscape,margin=2cm\nfontsize: 10pt\nmainfont: DejaVu Serif\nlang: pl-PL\n---\n\nWarszawa, "

/-- Template segment between the second `{last_day_of_month}` and `{month}`. -/
def tmplSeg2 : String :=
  "\n\n# Formularz rejestracji czasu pracy twórczej i Utworów w JetBrains Poland spółka z ograniczoną odpowiedzialnością / Registration form for creative time and Works at JetBrains Poland spółka z ograniczoną odpowiedzialnością\n\n## Dotyczy miesiąca / Concerns the month of: "

/-- Template segment between `{month}` and `{prs}` (the table header). -/
def tmplSeg3 : String :=
  "\n\n| Lp. | Utwór / Work | Autor / Author | Forma ustalenia / Form of the Work’s establishment | Status | Data powstania / Date of creation |\n| --- | ----------------------------------------------- | ------------------- | ------------------------ | ---------------- | -------------------- |\n"

/-- Template segment between `{prs}` and the first `{percent_creative}`. -/
def tmplSeg4 : String :=
  "\n\n### Total % of actual working time spent by creative time: "

/-- Template segment between the first and second `{percent_creative}`. -/
def tmplSeg5 : String :=
  "%\n\n\n## Oświadczenie Pracownika\n\nNiniejszym potwierdzam, że według mojej najlepszej wiedzy wskazany/e wyżej utwór/utwory stanowi/ą wynik mojej działalności twórczej o indywidualnym charakterze chroniony/e przepisami ustawy z dnia 4 lutego 1994 r. O prawie autorskim i prawach pokrewnych (t.j.: Dz.U. z 2022 r., poz. 2509). Ponadto oświadczam, że w miesiącu, którego dotyczy to oświadczenie mój czas pracy kreatywnej nad tworzeniem ww. Utworu/Utworów w stosunku do całego efektywnego czasu pracy (z wyłączeniem nieobecności w pracy) wyniósł "

/-- Template segment between the second and third `{percent_creative}`. -/
def tmplSeg6 : String :=
  " procent.\n\n## Employee’s declaration\n\nI hereby declare that, to my best knowledge, this (these) work(s) is (are) the result of my creative activity of an individual character protected by the provisions of the Act of 4 February 1994 on Copyright and Related Rights (consolidated text: Journal of Laws of 2022, item 2509). I also declare that, in the month which this declaration concerns, I have worked creatively on creating the above Work(s) for "

/-- Template segment after the third `{percent_creative}`. -/
def tmplSeg7 : String :=
  " percent of the entire effective working time (i.e., excluding absences at work).\n"

/-- Embedding of the `TEMPLATE` constant (see the section comment: the
verbatim source literal with its placeholder-free segments named). -/
def TEMPLATE : String :=
  tmplSeg0 ++ "{last_day_of_month}" ++ tmplSeg1 ++ "{last_day_of_month}" ++ tmplSeg2 ++
    "{month}" ++ tmplSeg3 ++ "{prs}" ++ tmplSeg4 ++ "{percent_creative}" ++ tmplSeg5 ++
    "{percent_creative}" ++ tmplSeg6 ++ "{percent_creative}" ++ tmplSeg7

/-! ## Whole-document rendering (src/main.rs:124-146) -/

/-- Token `{last_day_of_month}` as a character list. -/
def patLD : List Char := "{last_day_of_month}".data

/-- Token `{month}` as a character list. -/
def patM : List Char := "{month}".data

/-- Token `{percent_creative}` as a character list. -/
def patPC : List Char := "{percent_creative}".data

/-- Token `{prs}` as a character list. -/
def patPRS : List Char := "{prs}".data

/-- Embedding of `render_template`: join the surviving rows, then
substitute the four placeholders in source order — `{prs}`, `{month}`,
`{percent_creative}`, `{last_day_of_month}`.  The `last_day_of_month`
unwrap chain is modelled through `Option`. -/
def render_template (prs : List Review) (month : NaiveDate) (percent_creative : Int)
    (space_domain user_name : List Char) : Option (List Char) :=
  let prsStr := joinNL (renderRows prs space_domain user_name)
  match last_day_of_month month with
  | none => none
  | some ld =>
    some (replaceList patLD (formatDMY ld)
      (replaceList patPC (intToChars percent_creative)
        (replaceList patM (formatMY month)
          (replaceList patPRS prsStr TEMPLATE.data))))

/-! ## Basic properties of the replacement scan -/

theorem replaceGo_nil (pat repl : List Char) (fuel : Nat) :
    replaceGo pat repl fuel [] = [] := by
  cases fuel <;> rfl

theorem replaceGo_congr (pat repl : List Char) :
    ∀ (f₁ : Nat), ∀ (f₂ : Nat) (s : List Char), s.length ≤ f₁ → s.length ≤ f₂ →
      replaceGo pat repl f₁ s = replaceGo pat repl f₂ s := by
  intro f₁
  induction f₁ with
  | zero =>
    intro f₂ s hs₁ _
    have : s = [] := List.length_eq_zero.mp (Nat.le_zero.mp hs₁)
    subst this
    simp [replaceGo_nil]
  | succ f ih =>
    intro f₂ s hs₁ hs₂
    cases s with
    | nil => simp [replaceGo_nil]
    | cons c s' =>
      cases f₂ with
      | zero => exact absurd hs₂ (by simp)
      | succ f₂' =>
        show replaceGo pat repl (f + 1) (c :: s') = replaceGo pat repl (f₂' + 1) (c :: s')
        simp only [List.length_cons] at hs₁ hs₂
        simp only [replaceGo]
        by_cases h : pat.isPrefixOf (c :: s') ∧ pat ≠ []
        · rw [if_pos h, if_pos h]
          have hp : 1 ≤ pat.length := by
            cases pat with
            | nil => exact absurd rfl h.2
            | cons _ _ => simp
          have hlen : ((c :: s').drop pat.length).length ≤ f := by
            simp only [List.length_drop, List.length_cons]
            omega
          have hlen₂ : ((c :: s').drop pat.length).length ≤ f₂' := by
            simp only [List.length_drop, List.length_cons]
            omega
          rw [ih f₂' _ hlen hlen₂]
        · rw [if_neg h, if_neg h]
          have h1 : s'.length ≤ f := by omega
          have h2 : s'.length ≤ f₂' := by omega
          rw [ih f₂' s' h1 h2]

theorem replaceList_nil (pat repl : List Char) : replaceList pat repl [] = [] := rfl

/-- Unfolding rule at a matching position. -/
theorem replaceList_pos {pat : List Char} (repl : List Char) {c : Char} {s : List Char}
    (hne : pat ≠ []) (hp : pat <+: c :: s) :
    replaceList pat repl (c :: s) = repl ++ replaceList pat repl ((c :: s).drop pat.length) := by
  have hb : pat.isPrefixOf (c :: s) = true := by simpa using hp
  show replaceGo pat repl (s.length + 1) (c :: s) = _
  simp only [replaceGo]
  rw [if_pos ⟨hb, hne⟩]
  congr 1
  apply replaceGo_congr
  · have hp1 : 1 ≤ pat.length := by
      cases pat with
      | nil => exact absurd rfl hne
      | cons _ _ => simp
    simp only [List.length_drop, List.length_cons]
    omega
  · exact Nat.le_refl _

/-- Unfolding rule at a non-matching position. -/
theorem replaceList_neg {pat : List Char} (repl : List Char) {c : Char} {s : List Char}
    (h : ¬ pat <+: c :: s ∨ pat = []) :
    replaceList pat repl (c :: s) = c :: replaceList pat repl s := by
  have hcond : ¬ (pat.isPrefixOf (c :: s) ∧ pat ≠ []) := by
    rcases h with h | h
    · intro hc
      exact h (by simpa using hc.1)
    · intro hc
      exact hc.2 h
  show replaceGo pat repl (s.length + 1) (c :: s) = _
  simp only [replaceGo]
  rw [if_neg hcond]
  rfl

/-- Boolean occurrence scan used to discharge concrete side conditions. -/
def occursB (pat : List Char) : List Char → Bool
  | [] => pat.isEmpty
  | c :: s => pat.isPrefixOf (c :: s) || occursB pat s

theorem occursB_iff {pat s : List Char} : occursB pat s = true ↔ pat <:+: s := by
  induction s with
  | nil =>
    simp only [occursB, List.isEmpty_iff, List.infix_nil]
  | cons c s' ih =>
    rw [List.infix_cons_iff]
    simp [occursB, ih]

theorem not_infix_of_occursB {pat s : List Char} (h : occursB pat s = false) :
    ¬ pat <:+: s := by
  intro hi
  rw [← occursB_iff] at hi
  rw [h] at hi
  exact Bool.false_ne_true hi

/-- Boolean check that no nonempty suffix of `a` is a proper prefix of the
pattern (no match can start inside `a` and hang over its right end). -/
def noCrossB (pat a : List Char) : Bool :=
  (List.range a.length).all (fun p => !((a.drop p).isPrefixOf pat))

theorem no_cross_of_noCrossB {pat a : List Char} (h : noCrossB pat a = true) :
    ∀ p, p < a.length → ¬ (a.drop p <+: pat) := by
  intro p hp hpre
  have := List.all_eq_true.mp h p (List.mem_range.mpr hp)
  simp only [Bool.not_eq_true'] at this
  rw [← Bool.not_eq_true] at this
  exact this (by simpa using hpre)

/-- A scan over a string with no occurrence of the pattern leaves it
unchanged. -/
theorem replaceList_of_not_occurs {pat repl : List Char} :
    ∀ s : List Char, ¬ pat <:+: s → replaceList pat repl s = s := by
  intro s
  induction s with
  | nil => intro _; rfl
  | cons c s' ih =>
    intro h
    have h79 : ¬ pat <+: c :: s' := fun hp => h hp.isInfix
    rw [replaceList_neg repl (Or.inl h79)]
    rw [ih (fun hi => h (List.infix_cons hi))]

/-- A nonempty prefix of the scan's output whose characters avoid the
replacement string is a prefix of the input. -/
theorem prefix_of_result {pat repl : List Char} (hrne : repl ≠ []) :
    ∀ (s q' : List Char), (∀ c ∈ repl, c ∉ q') →
      q' <+: replaceList pat repl s → q' <+: s := by
  intro s
  induction s with
  | nil =>
    intro q' _ hq
    rwa [replaceList_nil] at hq
  | cons c s' ih =>
    intro q' hdisj hq
    by_cases hm : pat <+: c :: s' ∧ pat ≠ []
    · rw [replaceList_pos repl hm.2 hm.1] at hq
      cases q' with
      | nil => exact List.nil_prefix
      | cons d q'' =>
        exfalso
        have hne : (d :: q'') ≠ [] := by simp
        have hh := hq.head hne
        have hrepl_ne : repl ++ replaceList pat repl ((c :: s').drop pat.length) ≠ [] := by
          simp [hrne]
        have hhead : (d :: q'').head hne = repl.head hrne := by
          rw [hh]
          exact List.head_append_left hrne
        have hmem : repl.head hrne ∈ repl := List.head_mem hrne
        exact hdisj _ hmem (by rw [← hhead]; simp)
    · have hneg : ¬ pat <+: c :: s' ∨ pat = [] := by
        by_cases hp : pat = []
        · exact Or.inr hp
        · exact Or.inl (fun hc => hm ⟨hc, hp⟩)
      rw [replaceList_neg repl hneg] at hq
      cases q' with
      | nil => exact List.nil_prefix
      | cons d q'' =>
        rw [List.cons_prefix_cons] at hq
        have hd : d = c := hq.1
        have h2 : q'' <+: s' := ih q'' (fun e he hin => hdisj e he (List.mem_cons_of_mem _ hin)) hq.2
        rw [List.cons_prefix_cons]
        exact ⟨hd, h2⟩

/-- If no match of the pattern can start inside `a`, the scan passes `a`
through unchanged and continues on the rest. -/
theorem replaceList_append_left {pat repl : List Char} :
    ∀ (a y : List Char), (∀ p, p < a.length → ¬ pat <+: (a ++ y).drop p) →
      replaceList pat repl (a ++ y) = a ++ replaceList pat repl y := by
  intro a
  induction a with
  | nil => intro y _; rfl
  | cons c a' ih =>
    intro y hns
    have h0 : ¬ pat <+: c :: (a' ++ y) := by
      have := hns 0 (by simp)
      simpa using this
    have hstep : replaceList pat repl (c :: (a' ++ y)) =
        c :: replaceList pat repl (a' ++ y) := replaceList_neg repl (Or.inl h0)
    calc replaceList pat repl ((c :: a') ++ y)
        = c :: replaceList pat repl (a' ++ y) := hstep
      _ = c :: (a' ++ replaceList pat repl y) := by
          rw [ih y (fun p hp => by
            have := hns (p + 1) (by simp; omega)
            simpa using this)]
      _ = (c :: a') ++ replaceList pat repl y := rfl

/-- Sufficient check for `replaceList_append_left`: the pattern neither
occurs inside `a` nor does any nonempty suffix of `a` begin the pattern. -/
theorem no_start_of_checks {pat a : List Char} (h1 : ¬ pat <:+: a)
    (h2 : ∀ p, p < a.length → ¬ (a.drop p <+: pat)) :
    ∀ (y : List Char) (p : Nat), p < a.length → ¬ pat <+: (a ++ y).drop p := by
  intro y p hp hpre
  rw [List.drop_append_of_le_length (Nat.le_of_lt hp)] at hpre
  by_cases hlen : pat.length ≤ (a.drop p).length
  · have hdp : a.drop p <+: a.drop p ++ y := List.prefix_append _ _
    have : pat <+: a.drop p := List.prefix_of_prefix_length_le hpre hdp hlen
    exact h1 (this.isInfix.trans (List.drop_suffix p a).isInfix)
  · have hdp : a.drop p <+: a.drop p ++ y := List.prefix_append _ _
    have : a.drop p <+: pat :=
      List.prefix_of_prefix_length_le hdp hpre (Nat.le_of_not_le hlen)
    exact h2 p hp this

/-- The scan distributes over an append when no match can straddle the
boundary (the right part does not begin with a character of the
pattern). -/
theorem replaceList_append_split {pat repl : List Char} (hpat : pat ≠ [])
    (b : List Char) (hb : ∀ h : b ≠ [], b.head h ∉ pat) :
    ∀ (n : Nat) (x : List Char), x.length ≤ n →
      replaceList pat repl (x ++ b) = replaceList pat repl x ++ replaceList pat repl b := by
  intro n
  induction n with
  | zero =>
    intro x hx
    have : x = [] := List.length_eq_zero.mp (Nat.le_zero.mp hx)
    subst this
    simp [replaceList_nil]
  | succ n ih =>
    intro x hx
    cases x with
    | nil => simp [replaceList_nil]
    | cons c x' =>
      by_cases hm : pat <+: (c :: x') ++ b
      · by_cases hlen : pat.length ≤ (c :: x').length
        · have hmx : pat <+: c :: x' :=
            List.prefix_of_prefix_length_le hm (List.prefix_append _ _) hlen
          rw [List.cons_append]
          rw [replaceList_pos repl hpat (by rwa [← List.cons_append])]
          rw [replaceList_pos repl hpat hmx]
          rw [← List.cons_append]
          rw [List.drop_append_of_le_length (by simpa using hlen)]
          have hxlen : ((c :: x').drop pat.length).length ≤ n := by
            have hp1 : 1 ≤ pat.length := by
              cases pat with
              | nil => exact absurd rfl hpat
              | cons _ _ => simp
            simp only [List.length_drop, List.length_cons]
            simp only [List.length_cons] at hx
            omega
          rw [ih _ hxlen, List.append_assoc]
        · exfalso
          have hblen : b ≠ [] := by
            intro hbnil
            subst hbnil
            rw [List.append_nil] at hm
            exact hlen hm.length_le
          have hpl : (c :: x').length < pat.length := Nat.lt_of_not_le hlen
          obtain ⟨t, ht⟩ := hm
          have hk : (c :: x').length + 1 ≤ pat.length := by omega
          have htake : pat.take ((c :: x').length + 1) = (c :: x') ++ b.take 1 := by
            have h1 : pat.take ((c :: x').length + 1) =
                (pat ++ t).take ((c :: x').length + 1) :=
              (List.take_append_of_le_length hk).symm
            rw [h1, ht, List.take_append_eq_append_take]
            rw [List.take_of_length_le
              (show (c :: x').length ≤ (c :: x').length + 1 by omega)]
            rw [show (c :: x').length + 1 - (c :: x').length = 1 from by omega]
          have hb1 : b.take 1 = [b.head hblen] := by
            cases b with
            | nil => exact absurd rfl hblen
            | cons e b' => rfl
          rw [hb1] at htake
          apply hb hblen
          have hmem : b.head hblen ∈ pat.take ((c :: x').length + 1) := by
            rw [htake]
            exact List.mem_append_right _ (List.mem_singleton.mpr rfl)
          exact ( List.take_prefix _ _).subset hmem
      · have hmx : ¬ pat <+: c :: x' := by
          intro hc
          exact hm (hc.trans (List.prefix_append _ _))
        rw [List.cons_append]
        rw [replaceList_neg repl (Or.inl (by rwa [← List.cons_append]))]
        rw [replaceList_neg repl (Or.inl hmx)]
        have hxlen : x'.length ≤ n := by
          simp only [List.length_cons] at hx
          omega
        rw [ih x' hxlen]
        rfl

/-- Decomposition of an occurrence inside an append: it lies in the left
part, in the right part, or straddles the boundary. -/
theorem occurrence_append_cases {q : List Char} :
    ∀ (l r : List Char), q <:+: l ++ r →
      q <:+: l ∨ q <:+: r ∨
        ∃ k, 0 < k ∧ k < q.length ∧ q.take k <:+ l ∧ q.drop k <+: r := by
  intro l
  induction l with
  | nil =>
    intro r h
    exact Or.inr (Or.inl (by simpa using h))
  | cons c l' ih =>
    intro r h
    have h' : q <:+: c :: (l' ++ r) := by simpa using h
    rcases List.infix_cons_iff.mp h' with hpre | hin
    · by_cases hlen : q.length ≤ (c :: l').length
      · left
        have : q <+: c :: l' :=
          List.prefix_of_prefix_length_le (by simpa using hpre)
            (List.prefix_append _ _) hlen
        exact this.isInfix
      · right; right
        refine ⟨(c :: l').length, by simp, by omega, ?_, ?_⟩
        · have hq : q <+: (c :: l') ++ r := by simpa using hpre
          obtain ⟨t, ht⟩ := hq
          have htake := congrArg (List.take (c :: l').length) ht
          rw [List.take_append_of_le_length (by omega)] at htake
          rw [List.take_append_of_le_length (Nat.le_refl _)] at htake
          rw [List.take_length] at htake
          rw [htake]
        · have hq : q <+: (c :: l') ++ r := by simpa using hpre
          obtain ⟨t, ht⟩ := hq
          have heq : (c :: l') ++ r = q ++ t := ht.symm
          have hdrop := congrArg (List.drop (c :: l').length) heq
          rw [List.drop_left] at hdrop
          rw [List.drop_append_of_le_length (by omega)] at hdrop
          exact ⟨t, hdrop.symm⟩
    · rcases ih r hin with h1 | h2 | ⟨k, hk0, hkq, hks, hkp⟩
      · exact Or.inl (List.infix_cons h1)
      · exact Or.inr (Or.inl h2)
      · exact Or.inr (Or.inr ⟨k, hk0, hkq, hks.trans (List.suffix_cons c l'), hkp⟩)

/-- The scan introduces no occurrence of a string disjoint from the
replacement: if `q` does not occur in the input it does not occur in the
output. -/
theorem no_new_occurrence {pat repl q : List Char} (hrne : repl ≠ [])
    (hdisj : ∀ c ∈ repl, c ∉ q) :
    ∀ (n : Nat) (s : List Char), s.length ≤ n → ¬ q <:+: s →
      ¬ q <:+: replaceList pat repl s := by
  intro n
  induction n with
  | zero =>
    intro s hs h
    have : s = [] := List.length_eq_zero.mp (Nat.le_zero.mp hs)
    subst this
    rwa [replaceList_nil]
  | succ n ih =>
    intro s hs hq
    cases s with
    | nil => rwa [replaceList_nil]
    | cons c s' =>
      have hqne : q ≠ [] := by
        intro h
        exact hq (h ▸ List.nil_infix)
      by_cases hm : pat <+: c :: s' ∧ pat ≠ []
      · rw [replaceList_pos repl hm.2 hm.1]
        intro hocc
        have hqdrop : ¬ q <:+: replaceList pat repl ((c :: s').drop pat.length) := by
          apply ih
          · have hp1 : 1 ≤ pat.length := by
              cases pat with
              | nil => exact absurd rfl hm.2
              | cons _ _ => simp
            simp only [List.length_drop, List.length_cons]
            simp only [List.length_cons] at hs
            omega
          · intro hdi
            exact hq (hdi.trans (List.drop_suffix _ _).isInfix)
        rcases occurrence_append_cases repl _ hocc with h1 | h2 | ⟨k, hk0, hkq, hks, hkp⟩
        · have hsub : q ⊆ repl := h1.subset
          have : q.head hqne ∈ repl := hsub (List.head_mem hqne)
          exact hdisj _ this (List.head_mem hqne)
        · exact hqdrop h2
        · have htki : q.take k ≠ [] := by
            intro htn
            have : (q.take k).length = 0 := by rw [htn]; rfl
            rw [List.length_take] at this
            omega
          have hsub : q.take k ⊆ repl := hks.sublist.subset
          have hmem : (q.take k).head htki ∈ repl := hsub (List.head_mem htki)
          have hmemq : (q.take k).head htki ∈ q :=
            ( List.take_prefix k q).subset (List.head_mem htki)
          exact hdisj _ hmem hmemq
      · have hneg : ¬ pat <+: c :: s' ∨ pat = [] := by
          by_cases hp : pat = []
          · exact Or.inr hp
          · exact Or.inl (fun hc => hm ⟨hc, hp⟩)
        rw [replaceList_neg repl hneg]
        intro hocc
        rcases List.infix_cons_iff.mp hocc with hpre | hin
        · cases q with
          | nil => exact hqne rfl
          | cons d q'' =>
            rw [List.cons_prefix_cons] at hpre
            have h2 : q'' <+: s' :=
              prefix_of_result hrne s' q''
                (fun e he hin => hdisj e he (List.mem_cons_of_mem _ hin)) hpre.2
            apply hq
            rw [hpre.1]
            exact (List.cons_prefix_cons.mpr ⟨rfl, h2⟩).isInfix
        · have hs'n : s'.length ≤ n := by
            simp only [List.length_cons] at hs
            omega
          exact ih s' hs'n (fun hc => hq (List.infix_cons hc)) hin

/-- The scan leaves no occurrence of the pattern itself behind when the
replacement contains no character of the pattern. -/
theorem no_self_occurrence {pat repl : List Char} (hrne : repl ≠ []) (hpat : pat ≠ [])
    (hdisj : ∀ c ∈ repl, c ∉ pat) :
    ∀ (n : Nat) (s : List Char), s.length ≤ n → ¬ pat <:+: replaceList pat repl s := by
  intro n
  induction n with
  | zero =>
    intro s hs
    have : s = [] := List.length_eq_zero.mp (Nat.le_zero.mp hs)
    subst this
    rw [replaceList_nil]
    simp [hpat]
  | succ n ih =>
    intro s hs
    cases s with
    | nil =>
      rw [replaceList_nil]
      simp [hpat]
    | cons c s' =>
      by_cases hm : pat <+: c :: s' ∧ pat ≠ []
      · rw [replaceList_pos repl hm.2 hm.1]
        intro hocc
        rcases occurrence_append_cases repl _ hocc with h1 | h2 | ⟨k, hk0, hkq, hks, hkp⟩
        · have hsub : pat ⊆ repl := h1.subset
          exact hdisj _ (hsub (List.head_mem hpat)) (List.head_mem hpat)
        · have hlen : ((c :: s').drop pat.length).length ≤ n := by
            have hp1 : 1 ≤ pat.length := by
              cases pat with
              | nil => exact absurd rfl hm.2
              | cons _ _ => simp
            simp only [List.length_drop, List.length_cons]
            simp only [List.length_cons] at hs
            omega
          exact ih _ hlen h2
        · have htki : pat.take k ≠ [] := by
            intro htn
            have : (pat.take k).length = 0 := by rw [htn]; rfl
            rw [List.length_take] at this
            omega
          have hsub : pat.take k ⊆ repl := hks.sublist.subset
          have hmem : (pat.take k).head htki ∈ repl := hsub (List.head_mem htki)
          have hmemq : (pat.take k).head htki ∈ pat :=
            ( List.take_prefix k pat).subset (List.head_mem htki)
          exact hdisj _ hmem hmemq
      · have hnm : ¬ pat <+: c :: s' := fun hc => hm ⟨hc, hpat⟩
        rw [replaceList_neg repl (Or.inl hnm)]
        intro hocc
        rcases List.infix_cons_iff.mp hocc with hpre | hin
        · cases pat with
          | nil => exact hpat rfl
          | cons d pt =>
            rw [List.cons_prefix_cons] at hpre
            have h2 : pt <+: s' :=
              prefix_of_result hrne s' pt
                (fun e he hin => hdisj e he (List.mem_cons_of_mem _ hin)) hpre.2
            apply hnm
            rw [hpre.1]
            exact List.cons_prefix_cons.mpr ⟨rfl, h2⟩
        · have hs'n : s'.length ≤ n := by
            simp only [List.length_cons] at hs
            omega
          exact ih s' hs'n hin

/-- A prefix of the input within which no match starts is a prefix of the
output. -/
theorem prefix_preserved {pat repl : List Char} :
    ∀ (q s : List Char), q <+: s → (∀ p, p < q.length → ¬ pat <+: s.drop p) →
      q <+: replaceList pat repl s := by
  intro q
  induction q with
  | nil => intro s _ _; exact List.nil_prefix
  | cons d q' ih =>
    intro s hq hns
    cases s with
    | nil => simp at hq
    | cons c s' =>
      rw [List.cons_prefix_cons] at hq
      have h0 : ¬ pat <+: c :: s' := by
        have := hns 0 (by simp)
        simpa using this
      rw [replaceList_neg repl (Or.inl h0)]
      rw [List.cons_prefix_cons]
      refine ⟨hq.1, ih s' hq.2 (fun p hp => ?_)⟩
      have := hns (p + 1) (by simp; omega)
      simpa using this

/-- Conditions under which the scan for `pat` can never overlap an
occurrence of `q`: `q` occurs nowhere inside `pat`, no proper tail of
`pat` starts `q`, `pat` occurs nowhere inside `q`, and no proper tail of
`q` starts `pat`. -/
structure NoOverlap (pat q : List Char) : Prop where
  not_q_in_pat : ¬ q <:+: pat
  no_tail_pat_starts_q : ∀ i, i < pat.length → 0 < i → ¬ (pat.drop i <+: q)
  not_pat_in_q : ¬ pat <:+: q
  no_tail_q_starts_pat : ∀ p, p < q.length → 0 < p → ¬ (q.drop p <+: pat)

/-- An occurrence of a string that cannot overlap the pattern survives
the scan. -/
theorem occurrence_preserved {pat repl q : List Char} (hpat : pat ≠ [])
    (hov : NoOverlap pat q) :
    ∀ (n : Nat) (s : List Char), s.length ≤ n → q <:+: s →
      q <:+: replaceList pat repl s := by
  intro n
  induction n with
  | zero =>
    intro s hs hocc
    have : s = [] := List.length_eq_zero.mp (Nat.le_zero.mp hs)
    subst this
    rwa [replaceList_nil]
  | succ n ih =>
    intro s hs hocc
    cases s with
    | nil => rwa [replaceList_nil]
    | cons c s' =>
      by_cases hm : pat <+: c :: s'
      · obtain ⟨l, r, hlr⟩ := hocc
        by_cases hl : pat.length ≤ l.length
        · have hdi : q <:+: (c :: s').drop pat.length := by
            rw [← hlr, List.append_assoc, List.drop_append_of_le_length hl]
            exact ⟨l.drop pat.length, r, by rw [List.append_assoc]⟩
          have hlen : ((c :: s').drop pat.length).length ≤ n := by
            have hp1 : 1 ≤ pat.length := by
              cases pat with
              | nil => exact absurd rfl hpat
              | cons _ _ => simp
            simp only [List.length_drop, List.length_cons]
            simp only [List.length_cons] at hs
            omega
          rw [replaceList_pos repl hpat hm]
          have := ih _ hlen hdi
          obtain ⟨u, v, huv⟩ := this
          exact ⟨repl ++ u, v, by rw [← huv]; simp⟩
        · exfalso
          have hlq : l.length < pat.length := Nat.lt_of_not_le hl
          have hdl : pat.drop l.length <+: q ++ r := by
            obtain ⟨t, htt⟩ := hm
            have heq : l ++ (q ++ r) = pat ++ t := by
              rw [← List.append_assoc, hlr, ← htt]
            have hdrop := congrArg (List.drop l.length) heq
            rw [List.drop_left] at hdrop
            rw [List.drop_append_of_le_length (by omega)] at hdrop
            exact ⟨t, hdrop.symm⟩
          have hqq : q <+: q ++ r := List.prefix_append _ _
          by_cases hcmp : pat.length - l.length ≤ q.length
          · have hpq : pat.drop l.length <+: q := by
              apply List.prefix_of_prefix_length_le hdl hqq
              simp only [List.length_drop]
              omega
            by_cases hl0 : l.length = 0
            · apply hov.not_pat_in_q
              rw [hl0, List.drop_zero] at hpq
              exact hpq.isInfix
            · exact hov.no_tail_pat_starts_q l.length (by omega) (by omega) hpq
          · have hqp : q <+: pat.drop l.length := by
              apply List.prefix_of_prefix_length_le hqq hdl
              simp only [List.length_drop]
              omega
            apply hov.not_q_in_pat
            obtain ⟨w, hw⟩ := hqp
            exact ⟨pat.take l.length, w, by
              rw [List.append_assoc, hw, List.take_append_drop]⟩
      · rcases List.infix_cons_iff.mp (show q <:+: c :: s' from hocc) with hpre | hin
        · have hqpre : q <+: replaceList pat repl (c :: s') := by
            apply prefix_preserved _ _ hpre
            intro p hp hdrop
            rcases Nat.eq_zero_or_pos p with rfl | hp0
            · rw [List.drop_zero] at hdrop
              exact hm hdrop
            · obtain ⟨t, htt⟩ := hpre
              have heq := congrArg (List.drop p) htt.symm
              rw [List.drop_append_of_le_length (by omega)] at heq
              rw [heq] at hdrop
              by_cases hcmp : pat.length ≤ q.length - p
              · apply hov.not_pat_in_q
                have : pat <+: q.drop p := by
                  apply List.prefix_of_prefix_length_le hdrop (List.prefix_append _ _)
                  simp only [List.length_drop]
                  omega
                obtain ⟨w, hw⟩ := this
                exact ⟨q.take p, w, by
                  rw [List.append_assoc, hw, List.take_append_drop]⟩
              · apply hov.no_tail_q_starts_pat p hp hp0
                apply List.prefix_of_prefix_length_le (List.prefix_append _ _) hdrop
                simp only [List.length_drop]
                omega
          exact hqpre.isInfix
        · have hs'n : s'.length ≤ n := by
            simp only [List.length_cons] at hs
            omega
          have := ih s' hs'n hin
          rw [replaceList_neg repl (Or.inl hm)]
          exact List.infix_cons this

/-- An occurrence whose head character does not appear in the left part
of an append lies in the right part. -/
theorem occurrence_skips_left {q x y : List Char} (hq : q ≠ [])
    (hx : q.head hq ∉ x) (h : q <:+: x ++ y) : q <:+: y := by
  rcases occurrence_append_cases x y h with h1 | h2 | ⟨k, hk0, hkq, hks, _⟩
  · exact absurd (h1.subset (List.head_mem hq)) hx
  · exact h2
  · exfalso
    have htki : q.take k ≠ [] := by
      intro htn
      have : (q.take k).length = 0 := by rw [htn]; rfl
      rw [List.length_take] at this
      omega
    have hhead : (q.take k).head htki = q.head hq := by
      cases q with
      | nil => exact absurd rfl hq
      | cons d q' =>
        cases k with
        | zero => omega
        | succ k' => rfl
    have : q.head hq ∈ x := by
      rw [← hhead]
      exact hks.sublist.subset (List.head_mem htki)
    exact hx this

/-- An occurrence whose last character does not appear in the right part
of an append lies in the left part. -/
theorem occurrence_skips_right {q x y : List Char} (hq : q ≠ [])
    (hy : q.getLast hq ∉ y) (h : q <:+: x ++ y) : q <:+: x := by
  rcases occurrence_append_cases x y h with h1 | h2 | ⟨k, hk0, hkq, _, hkp⟩
  · exact h1
  · exact absurd (h2.subset (List.getLast_mem hq)) hy
  · exfalso
    have hdki : q.drop k ≠ [] := by
      intro hdn
      have : (q.drop k).length = 0 := by rw [hdn]; rfl
      rw [List.length_drop] at this
      omega
    have key : ∀ (l : List Char) (hl : l ≠ []), q.take k ++ q.drop k = l →
        l.getLast hl = (q.drop k).getLast hdki := by
      intro l hl hab
      subst hab
      exact List.getLast_append_of_ne_nil hdki
    have hlast : (q.drop k).getLast hdki = q.getLast hq :=
      (key q hq (List.take_append_drop k q)).symm
    have : q.getLast hq ∈ y := by
      rw [← hlast]
      exact hkp.sublist.subset (List.getLast_mem hdki)
    exact hy this

/-- The scan fired at an exact leading match. -/
theorem replaceList_head_match {pat repl : List Char} (hpat : pat ≠ []) (b : List Char) :
    replaceList pat repl (pat ++ b) = repl ++ replaceList pat repl b := by
  cases pat with
  | nil => exact absurd rfl hpat
  | cons p pt =>
    rw [List.cons_append]
    rw [replaceList_pos repl hpat (by rw [← List.cons_append]; exact List.prefix_append _ _)]
    rw [← List.cons_append, List.drop_left]

/-! ## Character classes of the numeric replacement strings -/

/-- Characters that can appear in a formatted number, date or month
(digits, dot, and the signs `formatYear` can emit). -/
def numericChar (c : Char) : Bool := ("0123456789.+-".data).contains c

theorem digitChar_numeric {n : Nat} (h : n < 10) : numericChar (digitChar n) = true := by
  interval_cases n <;> rfl

theorem natToCharsGo_numeric :
    ∀ (fuel n : Nat), n ≤ fuel → ∀ c ∈ natToCharsGo fuel n, numericChar c = true := by
  intro fuel
  induction fuel with
  | zero =>
    intro n hn c hc
    have : n = 0 := Nat.le_zero.mp hn
    subst this
    simp only [natToCharsGo, List.mem_singleton] at hc
    subst hc
    rfl
  | succ fuel ih =>
    intro n hn c hc
    simp only [natToCharsGo] at hc
    by_cases h10 : n < 10
    · rw [if_pos h10] at hc
      simp only [List.mem_singleton] at hc
      subst hc
      exact digitChar_numeric h10
    · rw [if_neg h10] at hc
      rcases List.mem_append.mp hc with h1 | h2
      · have hdiv : n / 10 ≤ fuel := by
          have : n / 10 < n := Nat.div_lt_self (by omega) (by omega)
          omega
        exact ih (n / 10) hdiv c h1
      · simp only [List.mem_singleton] at h2
        subst h2
        exact digitChar_numeric (Nat.mod_lt _ (by omega))

theorem natToChars_numeric {n : Nat} : ∀ c ∈ natToChars n, numericChar c = true :=
  natToCharsGo_numeric n n (Nat.le_refl n)

theorem natToCharsGo_ne_nil (fuel n : Nat) : natToCharsGo fuel n ≠ [] := by
  cases fuel with
  | zero => simp [natToCharsGo]
  | succ fuel =>
    simp only [natToCharsGo]
    by_cases h10 : n < 10
    · rw [if_pos h10]; simp
    · rw [if_neg h10]; simp

theorem natToChars_ne_nil (n : Nat) : natToChars n ≠ [] := natToCharsGo_ne_nil n n

theorem padZero_numeric {w n : Nat} : ∀ c ∈ padZero w n, numericChar c = true := by
  intro c hc
  rcases List.mem_append.mp hc with h1 | h2
  · rw [List.eq_of_mem_replicate h1]
    rfl
  · exact natToChars_numeric c h2

theorem padZero_ne_nil (w n : Nat) : padZero w n ≠ [] := by
  intro h
  have := congrArg List.length h
  simp only [padZero, List.length_append, List.length_replicate, List.length_nil] at this
  have hne := natToChars_ne_nil n
  have : (natToChars n).length = 0 := by omega
  exact hne (List.length_eq_zero.mp this)

theorem formatYear_numeric {y : Int} : ∀ c ∈ formatYear y, numericChar c = true := by
  intro c hc
  unfold formatYear at hc
  by_cases h1 : y < 0
  · rw [if_pos h1] at hc
    rcases List.mem_cons.mp hc with h | h
    · subst h; rfl
    · exact padZero_numeric c h
  · rw [if_neg h1] at hc
    by_cases h2 : 9999 < y
    · rw [if_pos h2] at hc
      rcases List.mem_cons.mp hc with h | h
      · subst h; rfl
      · exact padZero_numeric c h
    · rw [if_neg h2] at hc
      exact padZero_numeric c hc

theorem intToChars_numeric {i : Int} : ∀ c ∈ intToChars i, numericChar c = true := by
  intro c hc
  unfold intToChars at hc
  by_cases h1 : i < 0
  · rw [if_pos h1] at hc
    rcases List.mem_cons.mp hc with h | h
    · subst h; rfl
    · exact natToChars_numeric c h
  · rw [if_neg h1] at hc
    exact natToChars_numeric c hc

theorem intToChars_ne_nil (i : Int) : intToChars i ≠ [] := by
  unfold intToChars
  by_cases h1 : i < 0
  · rw [if_pos h1]; simp
  · rw [if_neg h1]; exact natToChars_ne_nil _

theorem dotChar_numeric : ∀ c ∈ ['.'], numericChar c = true := by
  intro c hc
  simp only [List.mem_singleton] at hc
  subst hc
  rfl

theorem formatDMY_numeric {d : NaiveDate} : ∀ c ∈ formatDMY d, numericChar c = true := by
  intro c hc
  unfold formatDMY at hc
  rcases List.mem_append.mp hc with h | h
  · rcases List.mem_append.mp h with h | h
    · rcases List.mem_append.mp h with h | h
      · rcases List.mem_append.mp h with h | h
        · exact padZero_numeric c h
        · exact dotChar_numeric c h
      · exact padZero_numeric c h
    · exact dotChar_numeric c h
  · exact formatYear_numeric c h

theorem formatMY_numeric {d : NaiveDate} : ∀ c ∈ formatMY d, numericChar c = true := by
  intro c hc
  unfold formatMY at hc
  rcases List.mem_append.mp hc with h | h
  · rcases List.mem_append.mp h with h | h
    · exact padZero_numeric c h
    · exact dotChar_numeric c h
  · exact formatYear_numeric c h

theorem formatDMY_ne_nil (d : NaiveDate) : formatDMY d ≠ [] := by
  unfold formatDMY
  intro h
  have := congrArg List.length h
  simp only [List.length_append, List.length_nil] at this
  have h1 := padZero_ne_nil 2 d.day
  have : (padZero 2 d.day).length = 0 := by omega
  exact h1 (List.length_eq_zero.mp this)

theorem formatMY_ne_nil (d : NaiveDate) : formatMY d ≠ [] := by
  unfold formatMY
  intro h
  have := congrArg List.length h
  simp only [List.length_append, List.length_nil] at this
  have h1 := padZero_ne_nil 2 d.month
  have : (padZero 2 d.month).length = 0 := by omega
  exact h1 (List.length_eq_zero.mp this)

/-- Strings of numeric characters are disjoint from strings without any. -/
theorem disjoint_of_char_classes {r t : List Char}
    (h1 : ∀ c ∈ r, numericChar c = true) (h2 : ∀ c ∈ t, numericChar c = false) :
    ∀ c ∈ r, c ∉ t := by
  intro c hc ht
  have := h1 c hc
  rw [h2 c ht] at this
  exact Bool.false_ne_true this

/-! ## Characterization of `render_template` on the fixed template -/

/-- Peeling a concrete pattern-free segment off the front of the scanned
string. -/
theorem peel_segment (pat a : List Char) {repl y : List Char}
    (h1 : occursB pat a = false) (h2 : noCrossB pat a = true) :
    replaceList pat repl (a ++ y) = a ++ replaceList pat repl y :=
  replaceList_append_left a y
    (no_start_of_checks (not_infix_of_occursB h1) (no_cross_of_noCrossB h2) y)

/-- If a match of the pattern starts inside `a`, the pattern's head
character lies in `a`. -/
theorem head_mem_of_match_inside {pat a y : List Char} (hpat : pat ≠ []) {p : Nat}
    (hp : p < a.length) (hpre : pat <+: (a ++ y).drop p) : pat.head hpat ∈ a := by
  have hadne : a.drop p ≠ [] := by
    intro h
    have := congrArg List.length h
    simp only [List.length_drop, List.length_nil] at this
    omega
  have hsplit : (a ++ y).drop p = a.drop p ++ y :=
    List.drop_append_of_le_length (Nat.le_of_lt hp)
  have hdne : (a ++ y).drop p ≠ [] := hpre.ne_nil hpat
  have h1 : pat.head hpat = ((a ++ y).drop p).head hdne := hpre.head hpat
  have key : ∀ (l : List Char) (hl : l ≠ []), l = a.drop p ++ y →
      l.head hl = (a.drop p).head hadne := by
    intro l hl heq
    subst heq
    exact List.head_append_left hadne
  rw [h1, key _ hdne hsplit]
  exact (List.drop_suffix p a).sublist.subset (List.head_mem hadne)

/-- Peeling a numeric segment off the front of the scanned string, for a
pattern opening with a non-numeric character. -/
theorem peel_numeric (pat a : List Char) {repl y : List Char} (hpat : pat ≠ [])
    (hhead : numericChar (pat.head hpat) = false)
    (hnum : ∀ c ∈ a, numericChar c = true) :
    replaceList pat repl (a ++ y) = a ++ replaceList pat repl y := by
  apply replaceList_append_left
  intro p hp hpre
  have hmem : pat.head hpat ∈ a := head_mem_of_match_inside hpat hp hpre
  have := hnum _ hmem
  rw [hhead] at this
  exact Bool.false_ne_true this

/-- Splitting the scan at a boundary the pattern cannot straddle (the
right part starts with a character outside the pattern). -/
theorem split_at_boundary (pat : List Char) {repl : List Char} (x b : List Char)
    (hpat : pat ≠ []) (hb : ∀ h : b ≠ [], b.head h ∉ pat) :
    replaceList pat repl (x ++ b) = replaceList pat repl x ++ replaceList pat repl b :=
  replaceList_append_split hpat b hb x.length x (Nat.le_refl _)

/-- Peeling a brace-free segment off the front of the scanned string, for
a pattern opening with `{` (all four placeholder tokens do). -/
theorem peel_braceless (pat a : List Char) {repl y : List Char} (hpat : pat ≠ [])
    (hhead : pat.head hpat = '{') (ha : '{' ∉ a) :
    replaceList pat repl (a ++ y) = a ++ replaceList pat repl y := by
  apply replaceList_append_left
  intro p hp hpre
  apply ha
  rw [← hhead]
  exact head_mem_of_match_inside hpat hp hpre

/-- A pattern opening with `{` does not occur in a brace-free string. -/
theorem not_occurs_braceless {pat : List Char} (hpat : pat ≠ [])
    (hhead : pat.head hpat = '{') {s : List Char} (hs : '{' ∉ s) :
    ¬ pat <:+: s := by
  intro h
  apply hs
  rw [← hhead]
  exact h.subset (List.head_mem hpat)

/-- The eight template segments contain no brace characters (the braces
of the source template all belong to placeholder tokens). -/
theorem tmplSeg0_braces : '{' ∉ tmplSeg0.data ∧ '}' ∉ tmplSeg0.data := by decide

theorem tmplSeg1_braces : '{' ∉ tmplSeg1.data ∧ '}' ∉ tmplSeg1.data := by decide

theorem tmplSeg2_braces : '{' ∉ tmplSeg2.data ∧ '}' ∉ tmplSeg2.data := by decide

theorem tmplSeg3_braces : '{' ∉ tmplSeg3.data ∧ '}' ∉ tmplSeg3.data := by decide

theorem tmplSeg4_braces : '{' ∉ tmplSeg4.data ∧ '}' ∉ tmplSeg4.data := by decide

theorem tmplSeg5_braces : '{' ∉ tmplSeg5.data ∧ '}' ∉ tmplSeg5.data := by decide

theorem tmplSeg6_braces : '{' ∉ tmplSeg6.data ∧ '}' ∉ tmplSeg6.data := by decide

theorem tmplSeg7_braces : '{' ∉ tmplSeg7.data ∧ '}' ∉ tmplSeg7.data := by decide

/-- The template, written as right-nested appends of its segments and
tokens. -/
theorem template_decomp :
    TEMPLATE.data =
      tmplSeg0.data ++ (patLD ++ (tmplSeg1.data ++ (patLD ++ (tmplSeg2.data ++ (patM ++
        (tmplSeg3.data ++ (patPRS ++ (tmplSeg4.data ++ (patPC ++ (tmplSeg5.data ++ (patPC ++
        (tmplSeg6.data ++ (patPC ++ tmplSeg7.data))))))))))))) := by
  simp only [TEMPLATE, patLD, patM, patPC, patPRS, String.data_append, List.append_assoc]

/-- Substituting `{prs}`: the single `{prs}` occurrence is replaced and
everything else is untouched. -/
theorem render_step_prs (prsStr : List Char) :
    replaceList patPRS prsStr TEMPLATE.data =
      tmplSeg0.data ++ (patLD ++ (tmplSeg1.data ++ (patLD ++ (tmplSeg2.data ++ (patM ++
        (tmplSeg3.data ++ (prsStr ++ (tmplSeg4.data ++ (patPC ++ (tmplSeg5.data ++ (patPC ++
        (tmplSeg6.data ++ (patPC ++ tmplSeg7.data))))))))))))) := by
  rw [template_decomp]
  rw [peel_braceless patPRS tmplSeg0.data (by decide) (by rfl) tmplSeg0_braces.1]
  rw [peel_segment patPRS patLD (by rfl) (by rfl)]
  rw [peel_braceless patPRS tmplSeg1.data (by decide) (by rfl) tmplSeg1_braces.1]
  rw [peel_segment patPRS patLD (by rfl) (by rfl)]
  rw [peel_braceless patPRS tmplSeg2.data (by decide) (by rfl) tmplSeg2_braces.1]
  rw [peel_segment patPRS patM (by rfl) (by rfl)]
  rw [peel_braceless patPRS tmplSeg3.data (by decide) (by rfl) tmplSeg3_braces.1]
  rw [replaceList_head_match (by decide)]
  rw [peel_braceless patPRS tmplSeg4.data (by decide) (by rfl) tmplSeg4_braces.1]
  rw [peel_segment patPRS patPC (by rfl) (by rfl)]
  rw [peel_braceless patPRS tmplSeg5.data (by decide) (by rfl) tmplSeg5_braces.1]
  rw [peel_segment patPRS patPC (by rfl) (by rfl)]
  rw [peel_braceless patPRS tmplSeg6.data (by decide) (by rfl) tmplSeg6_braces.1]
  rw [peel_segment patPRS patPC (by rfl) (by rfl)]
  rw [replaceList_of_not_occurs tmplSeg7.data (not_occurs_braceless (by decide) (by rfl) tmplSeg7_braces.1)]

/-- Head of a segment-fronted tail, for boundary conditions. -/
theorem boundary_head {pat : List Char} (a : String) (rest : List Char)
    (ha : a.data ≠ []) (hh : a.data.head ha ∉ pat) :
    ∀ h : a.data ++ rest ≠ [], (a.data ++ rest).head h ∉ pat := by
  intro h
  rw [List.head_append_left ha]
  exact hh

/-- Substituting `{month}`: the single `{month}` token is replaced, and
the token is also replaced inside the already-substituted row text. -/
theorem render_step_month (prsStr mStr : List Char) :
    replaceList patM mStr
      (tmplSeg0.data ++ (patLD ++ (tmplSeg1.data ++ (patLD ++ (tmplSeg2.data ++ (patM ++
        (tmplSeg3.data ++ (prsStr ++ (tmplSeg4.data ++ (patPC ++ (tmplSeg5.data ++ (patPC ++
        (tmplSeg6.data ++ (patPC ++ tmplSeg7.data)))))))))))))) =
      tmplSeg0.data ++ (patLD ++ (tmplSeg1.data ++ (patLD ++ (tmplSeg2.data ++ (mStr ++
        (tmplSeg3.data ++ (replaceList patM mStr prsStr ++ (tmplSeg4.data ++ (patPC ++
        (tmplSeg5.data ++ (patPC ++ (tmplSeg6.data ++ (patPC ++
        tmplSeg7.data))))))))))))) := by
  rw [peel_braceless patM tmplSeg0.data (by decide) (by rfl) tmplSeg0_braces.1]
  rw [peel_segment patM patLD (by rfl) (by rfl)]
  rw [peel_braceless patM tmplSeg1.data (by decide) (by rfl) tmplSeg1_braces.1]
  rw [peel_segment patM patLD (by rfl) (by rfl)]
  rw [peel_braceless patM tmplSeg2.data (by decide) (by rfl) tmplSeg2_braces.1]
  rw [replaceList_head_match (by decide)]
  rw [peel_braceless patM tmplSeg3.data (by decide) (by rfl) tmplSeg3_braces.1]
  rw [split_at_boundary patM prsStr _ (by decide)
    (boundary_head tmplSeg4 _ (by decide) (by decide))]
  rw [peel_braceless patM tmplSeg4.data (by decide) (by rfl) tmplSeg4_braces.1]
  rw [peel_segment patM patPC (by rfl) (by rfl)]
  rw [peel_braceless patM tmplSeg5.data (by decide) (by rfl) tmplSeg5_braces.1]
  rw [peel_segment patM patPC (by rfl) (by rfl)]
  rw [peel_braceless patM tmplSeg6.data (by decide) (by rfl) tmplSeg6_braces.1]
  rw [peel_segment patM patPC (by rfl) (by rfl)]
  rw [replaceList_of_not_occurs tmplSeg7.data (not_occurs_braceless (by decide) (by rfl) tmplSeg7_braces.1)]

/-- Substituting `{percent_creative}`: its three template occurrences are
replaced, and the token is also replaced inside the row text. -/
theorem render_step_percent (prsStr mStr pcStr : List Char)
    (hm : ∀ c ∈ mStr, numericChar c = true) :
    replaceList patPC pcStr
      (tmplSeg0.data ++ (patLD ++ (tmplSeg1.data ++ (patLD ++ (tmplSeg2.data ++ (mStr ++
        (tmplSeg3.data ++ (replaceList patM mStr prsStr ++ (tmplSeg4.data ++ (patPC ++
        (tmplSeg5.data ++ (patPC ++ (tmplSeg6.data ++ (patPC ++ tmplSeg7.data)))))))))))))) =
      tmplSeg0.data ++ (patLD ++ (tmplSeg1.data ++ (patLD ++ (tmplSeg2.data ++ (mStr ++
        (tmplSeg3.data ++ (replaceList patPC pcStr (replaceList patM mStr prsStr) ++
        (tmplSeg4.data ++ (pcStr ++ (tmplSeg5.data ++ (pcStr ++ (tmplSeg6.data ++ (pcStr ++
        tmplSeg7.data))))))))))))) := by
  rw [peel_braceless patPC tmplSeg0.data (by decide) (by rfl) tmplSeg0_braces.1]
  rw [peel_segment patPC patLD (by rfl) (by rfl)]
  rw [peel_braceless patPC tmplSeg1.data (by decide) (by rfl) tmplSeg1_braces.1]
  rw [peel_segment patPC patLD (by rfl) (by rfl)]
  rw [peel_braceless patPC tmplSeg2.data (by decide) (by rfl) tmplSeg2_braces.1]
  rw [peel_numeric patPC mStr (by decide) (by decide) hm]
  rw [peel_braceless patPC tmplSeg3.data (by decide) (by rfl) tmplSeg3_braces.1]
  rw [split_at_boundary patPC (replaceList patM mStr prsStr) _ (by decide)
    (boundary_head tmplSeg4 _ (by decide) (by decide))]
  rw [peel_braceless patPC tmplSeg4.data (by decide) (by rfl) tmplSeg4_braces.1]
  rw [replaceList_head_match (by decide)]
  rw [peel_braceless patPC tmplSeg5.data (by decide) (by rfl) tmplSeg5_braces.1]
  rw [replaceList_head_match (by decide)]
  rw [peel_braceless patPC tmplSeg6.data (by decide) (by rfl) tmplSeg6_braces.1]
  rw [replaceList_head_match (by decide)]
  rw [replaceList_of_not_occurs tmplSeg7.data (not_occurs_braceless (by decide) (by rfl) tmplSeg7_braces.1)]

/-- Substituting `{last_day_of_month}`: its two template occurrences are
replaced, and the token is also replaced inside the row text. -/
theorem render_step_lastday (w mStr pcStr ldStr : List Char)
    (hm : ∀ c ∈ mStr, numericChar c = true)
    (hp : ∀ c ∈ pcStr, numericChar c = true) :
    replaceList patLD ldStr
      (tmplSeg0.data ++ (patLD ++ (tmplSeg1.data ++ (patLD ++ (tmplSeg2.data ++ (mStr ++
        (tmplSeg3.data ++ (w ++ (tmplSeg4.data ++ (pcStr ++ (tmplSeg5.data ++ (pcStr ++
        (tmplSeg6.data ++ (pcStr ++ tmplSeg7.data)))))))))))))) =
      tmplSeg0.data ++ (ldStr ++ (tmplSeg1.data ++ (ldStr ++ (tmplSeg2.data ++ (mStr ++
        (tmplSeg3.data ++ (replaceList patLD ldStr w ++ (tmplSeg4.data ++ (pcStr ++
        (tmplSeg5.data ++ (pcStr ++ (tmplSeg6.data ++ (pcStr ++
        tmplSeg7.data))))))))))))) := by
  rw [peel_braceless patLD tmplSeg0.data (by decide) (by rfl) tmplSeg0_braces.1]
  rw [replaceList_head_match (by decide)]
  rw [peel_braceless patLD tmplSeg1.data (by decide) (by rfl) tmplSeg1_braces.1]
  rw [replaceList_head_match (by decide)]
  rw [peel_braceless patLD tmplSeg2.data (by decide) (by rfl) tmplSeg2_braces.1]
  rw [peel_numeric patLD mStr (by decide) (by decide) hm]
  rw [peel_braceless patLD tmplSeg3.data (by decide) (by rfl) tmplSeg3_braces.1]
  rw [split_at_boundary patLD w _ (by decide)
    (boundary_head tmplSeg4 _ (by decide) (by decide))]
  rw [peel_braceless patLD tmplSeg4.data (by decide) (by rfl) tmplSeg4_braces.1]
  rw [peel_numeric patLD pcStr (by decide) (by decide) hp]
  rw [peel_braceless patLD tmplSeg5.data (by decide) (by rfl) tmplSeg5_braces.1]
  rw [peel_numeric patLD pcStr (by decide) (by decide) hp]
  rw [peel_braceless patLD tmplSeg6.data (by decide) (by rfl) tmplSeg6_braces.1]
  rw [peel_numeric patLD pcStr (by decide) (by decide) hp]
  rw [replaceList_of_not_occurs tmplSeg7.data (not_occurs_braceless (by decide) (by rfl) tmplSeg7_braces.1)]

/-- The row text as it appears in the final document: the three
later-substituted placeholders have been replaced inside it as well. -/
def renderedBody (prsStr mStr pcStr ldStr : List Char) : List Char :=
  replaceList patLD ldStr (replaceList patPC pcStr (replaceList patM mStr prsStr))

/-- Full characterization of `render_template`: the eight template
segments survive verbatim, the two `{last_day_of_month}` slots carry the
formatted last day, the `{month}` slot the formatted month, the three
`{percent_creative}` slots the formatted percentage, and the `{prs}` slot
carries the joined rows with the three later placeholders substituted
inside them. -/
theorem render_template_eq (prs : List Review) (month : NaiveDate) (pc : Int)
    (domain user : List Char) (ld : NaiveDate)
    (hld : last_day_of_month month = some ld) :
    render_template prs month pc domain user = some (
      tmplSeg0.data ++ (formatDMY ld ++ (tmplSeg1.data ++ (formatDMY ld ++ (tmplSeg2.data ++
        (formatMY month ++ (tmplSeg3.data ++
        (renderedBody (joinNL (renderRows prs domain user)) (formatMY month) (intToChars pc)
          (formatDMY ld) ++ (tmplSeg4.data ++ (intToChars pc ++ (tmplSeg5.data ++
        (intToChars pc ++ (tmplSeg6.data ++ (intToChars pc ++
        tmplSeg7.data)))))))))))))) := by
  have hstart : render_template prs month pc domain user =
      some (replaceList patLD (formatDMY ld)
        (replaceList patPC (intToChars pc)
          (replaceList patM (formatMY month)
            (replaceList patPRS (joinNL (renderRows prs domain user)) TEMPLATE.data)))) := by
    unfold render_template
    rw [hld]
  rw [hstart]
  rw [render_step_prs]
  rw [render_step_month]
  rw [render_step_percent _ _ _ (fun c hc => formatMY_numeric c hc)]
  rw [render_step_lastday _ _ _ _ (fun c hc => formatMY_numeric c hc)
    (fun c hc => intToChars_numeric c hc)]
  rfl

/-! ## Structure of the rendered rows -/

/-- `render_pr` as a conditional on the entry's state. -/
theorem render_pr_eq (idx : Int) (pr : Review) (domain author : List Char) :
    render_pr idx pr domain author =
      if pr.state = ReviewState.Deleted then none
      else some (rowString idx pr domain author) := by
  unfold render_pr
  cases pr.state <;> rfl

/-- The rows of `render_template` are exactly the non-`Deleted` entries,
each paired with `1 +` its position in the original input list (the
index is assigned by `enumerate` before `filter_map` drops `Deleted`
entries, so dropped entries still consume an index). -/
theorem renderRows_eq (prs : List Review) (domain author : List Char) :
    renderRows prs domain author =
      (prs.enum.filter (fun p => p.2.state ≠ ReviewState.Deleted)).map
        (fun p => rowString (Int.ofNat p.1 + 1) p.2 domain author) := by
  unfold renderRows List.enum
  suffices h : ∀ (n : Nat),
      (prs.enumFrom n).filterMap (fun p => render_pr (Int.ofNat p.1 + 1) p.2 domain author) =
      ((prs.enumFrom n).filter (fun p => p.2.state ≠ ReviewState.Deleted)).map
        (fun p => rowString (Int.ofNat p.1 + 1) p.2 domain author) from h 0
  induction prs with
  | nil => intro n; rfl
  | cons pr prs ih =>
    intro n
    rw [List.enumFrom_cons]
    rw [List.filterMap_cons, List.filter_cons]
    by_cases hd : pr.state = ReviewState.Deleted
    · have h1 : render_pr (Int.ofNat n + 1) pr domain author = none := by
        rw [render_pr_eq, if_pos hd]
      rw [h1]
      have h2 : (decide ((n, pr).2.state ≠ ReviewState.Deleted)) = false := by
        simp [hd]
      rw [h2]
      simp only [Bool.false_eq_true, if_false]
      exact ih (n + 1)
    · have h1 : render_pr (Int.ofNat n + 1) pr domain author =
          some (rowString (Int.ofNat n + 1) pr domain author) := by
        rw [render_pr_eq, if_neg hd]
      rw [h1]
      have h2 : (decide ((n, pr).2.state ≠ ReviewState.Deleted)) = true := by
        simp [hd]
      rw [h2]
      simp only [if_true, List.map_cons]
      rw [ih (n + 1)]

/-- Every produced row is a contiguous block of the newline-joined row
text. -/
theorem mem_joinNL (r : List Char) : ∀ rows, r ∈ rows → r <:+: joinNL rows := by
  intro rows
  induction rows with
  | nil => intro h; cases h
  | cons r₀ rest ih =>
    intro h
    rcases List.mem_cons.mp h with rfl | hmem
    · cases rest with
      | nil => exact List.infix_rfl
      | cons r₁ rest' => exact ⟨[], '\n' :: joinNL (r₁ :: rest'), by simp [joinNL]⟩
    · cases rest with
      | nil => cases hmem
      | cons r₁ rest' =>
        have := ih hmem
        obtain ⟨u, v, huv⟩ := this
        exact ⟨r₀ ++ '\n' :: u, v, by
          rw [show joinNL (r₀ :: r₁ :: rest') = r₀ ++ '\n' :: joinNL (r₁ :: rest') from rfl,
            ← huv]
          simp⟩

/-- Replacement at a single-character pattern acts pointwise: every
occurrence of the character becomes the replacement string, all other
characters are kept. -/
theorem single_char_replace (p : Char) (r : List Char) :
    ∀ s : List Char, replaceList [p] r s = s.flatMap (fun c => if c = p then r else [c]) := by
  intro s
  induction s with
  | nil => rfl
  | cons c s' ih =>
    by_cases hc : c = p
    · subst hc
      have hm : [c] <+: c :: s' := ⟨s', rfl⟩
      rw [replaceList_pos r (by simp) hm]
      rw [show (c :: s').drop [c].length = s' from rfl]
      rw [List.flatMap_cons, if_pos rfl, ih]
    · have hm : ¬ [p] <+: c :: s' := by
        intro hp
        rw [List.cons_prefix_cons] at hp
        exact hc hp.1.symm
      rw [replaceList_neg r (Or.inl hm), List.flatMap_cons, if_neg hc, ih]
      rfl

/-! ## Decode failure propagation -/

/-- A response element whose decode fails makes the whole response
decode fail. -/
theorem decodeResponse_error_of_mem :
    ∀ (rs : List RawReview) (r : RawReview), r ∈ rs →
      (∀ v, decodeReview r ≠ Except.ok v) →
      ∃ e, decodeResponse rs = Except.error e := by
  intro rs
  induction rs with
  | nil => intro r hr; cases hr
  | cons r₀ rest ih =>
    intro r hr hfail
    rcases List.mem_cons.mp hr with rfl | hmem
    · unfold decodeResponse
      cases hdec : decodeReview r with
      | error e => exact ⟨e, rfl⟩
      | ok v => exact absurd hdec (hfail v)
    · unfold decodeResponse
      cases hdec : decodeReview r₀ with
      | error e => exact ⟨e, rfl⟩
      | ok v =>
        obtain ⟨e, he⟩ := ih r hmem hfail
        rw [he]
        exact ⟨e, rfl⟩

/-- An invalid timestamp makes the element decode fail, whatever the
other fields hold. -/
theorem decodeReview_fails_of_bad_timestamp (r : RawReview)
    (h : parse_timestamp r.createdAt = none) :
    ∀ v, decodeReview r ≠ Except.ok v := by
  intro v
  unfold decodeReview
  cases hst : decodeState r.state with
  | none => exact fun hc => Except.noConfusion hc
  | some st =>
    rw [h]
    exact fun hc => Except.noConfusion hc

/-- An unrecognized state token makes the element decode fail. -/
theorem decodeReview_fails_of_bad_state (r : RawReview)
    (h : decodeState r.state = none) :
    ∀ v, decodeReview r ≠ Except.ok v := by
  intro v
  unfold decodeReview
  rw [h]
  exact fun hc => Except.noConfusion hc

/-- `decodeState` rejects exactly the values outside the three
case-sensitive tokens. -/
theorem decodeState_none_iff (s : List Char) :
    decodeState s = none ↔
      s ≠ "Opened".data ∧ s ≠ "Closed".data ∧ s ≠ "Deleted".data := by
  unfold decodeState
  by_cases h1 : s = "Opened".data
  · rw [if_pos h1]; simp [h1]
  · rw [if_neg h1]
    by_cases h2 : s = "Closed".data
    · rw [if_pos h2]; simp [h1, h2]
    · rw [if_neg h2]
      by_cases h3 : s = "Deleted".data
      · rw [if_pos h3]; simp [h1, h2, h3]
      · rw [if_neg h3]; simp [h1, h2, h3]

/-! ## Month-boundary arithmetic -/

/-- The last day of a month, as a date value. -/
def endOfMonth (y : Int) (m : Nat) : NaiveDate := ⟨y, m, daysInMonth y m⟩

/-- The first day of the month after month `m` of year `y`, with December
rolling over to January of the next year. -/
def firstOfNextMonth (y : Int) (m : Nat) : NaiveDate :=
  if m = 12 then ⟨y + 1, 1, 1⟩ else ⟨y, m + 1, 1⟩

theorem daysInMonth_pos (y : Int) (m : Nat) : 1 ≤ daysInMonth y m := by
  unfold daysInMonth
  split
  · split <;> omega
  · split <;> omega

theorem from_ymd_opt_first (y : Int) (m : Nat) (h1 : 1 ≤ m) (h2 : m ≤ 12) :
    from_ymd_opt y m 1 = some ⟨y, m, 1⟩ := by
  unfold from_ymd_opt
  rw [if_pos]
  exact ⟨h1, h2, Nat.le_refl 1, daysInMonth_pos y m⟩

theorem from_ymd_opt_13 (y : Int) : from_ymd_opt y 13 1 = none := by
  unfold from_ymd_opt
  rw [if_neg]
  intro h
  have h13 : (13 : Nat) ≤ 12 := h.2.1
  omega

theorem pred_opt_first_of (y : Int) (m : Nat) (h2 : 2 ≤ m) :
    pred_opt ⟨y, m, 1⟩ = some ⟨y, m - 1, daysInMonth y (m - 1)⟩ := by
  unfold pred_opt
  rw [if_neg (show ¬ (2 : Nat) ≤ 1 by omega), if_pos (show (2 : Nat) ≤ m from h2)]

theorem pred_opt_jan (y : Int) : pred_opt ⟨y, 1, 1⟩ = some ⟨y - 1, 12, 31⟩ := by
  unfold pred_opt
  rw [if_neg (show ¬ (2 : Nat) ≤ 1 by omega), if_neg (show ¬ (2 : Nat) ≤ 1 by omega)]

theorem daysInMonth_12 (y : Int) : daysInMonth y 12 = 31 := by
  unfold daysInMonth
  rw [if_neg (by omega), if_neg (by omega)]

/-- The day before the first of the following month is the last day of
the month. -/
theorem pred_next_eq (y : Int) (m : Nat) (h1 : 1 ≤ m) (h2 : m ≤ 12) :
    pred_opt (firstOfNextMonth y m) = some (endOfMonth y m) := by
  unfold firstOfNextMonth
  by_cases hm : m = 12
  · rw [if_pos hm, pred_opt_jan, show y + 1 - 1 = y by omega]
    subst hm
    unfold endOfMonth
    rw [daysInMonth_12]
  · rw [if_neg hm, pred_opt_first_of y (m + 1) (by omega)]
    rfl

/-- The `end_date` computed by `fetch_prs_for_month` (first of the next
month with December fallback, then one day back) is the last day of the
month. -/
theorem fetch_range_eq (y : Int) (m : Nat) (d : Nat) (h1 : 1 ≤ m) (h2 : m ≤ 12) :
    fetch_prs_for_month_range ⟨y, m, d⟩ = some (⟨y, m, 1⟩, endOfMonth y m) := by
  unfold fetch_prs_for_month_range
  rw [from_ymd_opt_first y m h1 h2]
  by_cases hm : m = 12
  · subst hm
    rw [show (12 : Nat) + 1 = 13 from rfl, from_ymd_opt_13]
    rw [from_ymd_opt_first (y + 1) 1 (by omega) (by omega)]
    have := pred_next_eq y 12 (by omega) (by omega)
    unfold firstOfNextMonth at this
    rw [if_pos rfl] at this
    simp only [Option.bind_eq_bind, Option.some_bind, Option.none_orElse]
    rw [this]
    simp
  · rw [from_ymd_opt_first y (m + 1) (by omega) (by omega)]
    have := pred_next_eq y m h1 h2
    unfold firstOfNextMonth at this
    rw [if_neg hm] at this
    simp only [Option.bind_eq_bind, Option.some_bind, Option.some_orElse]
    rw [this]
    simp

/-- `last_day_of_month` computes the last day of the month of its
argument, whatever the day-of-month. -/
theorem last_day_of_month_eq (date : NaiveDate) (h1 : 1 ≤ date.month)
    (h2 : date.month ≤ 12) :
    last_day_of_month date = some (endOfMonth date.year date.month) := by
  unfold last_day_of_month
  by_cases hm : date.month = 12
  · rw [if_pos hm, if_pos hm]
    dsimp only
    rw [from_ymd_opt_first (date.year + 1) 1 (by omega) (by omega)]
    have := pred_next_eq date.year 12 (by omega) (by omega)
    unfold firstOfNextMonth at this
    rw [if_pos rfl] at this
    simp only [Option.bind_eq_bind, Option.some_bind]
    rw [hm, this]
  · rw [if_neg hm, if_neg hm]
    dsimp only
    rw [from_ymd_opt_first date.year (date.month + 1) (by omega) (by omega)]
    have := pred_next_eq date.year date.month h1 h2
    unfold firstOfNextMonth at this
    rw [if_neg hm] at this
    simp only [Option.bind_eq_bind, Option.some_bind]
    rw [this]

/-- `previous_month` computes the last day of the month before the month
of its argument. -/
theorem previous_month_eq (now : NaiveDate) (h1 : 1 ≤ now.month) (h2 : now.month ≤ 12) :
    previous_month now = some (if now.month = 1 then ⟨now.year - 1, 12, 31⟩
      else ⟨now.year, now.month - 1, daysInMonth now.year (now.month - 1)⟩) := by
  unfold previous_month
  rw [from_ymd_opt_first now.year now.month h1 h2]
  by_cases hm : now.month = 1
  · rw [if_pos hm, hm]
    simp only [Option.bind_eq_bind, Option.some_bind]
    exact pred_opt_jan now.year
  · rw [if_neg hm]
    simp only [Option.bind_eq_bind, Option.some_bind]
    exact pred_opt_first_of now.year now.month (by omega)

/-! ## Token character classes and overlap facts -/

theorem patLD_nonnumeric : ∀ c ∈ patLD, numericChar c = false := by decide

theorem patM_nonnumeric : ∀ c ∈ patM, numericChar c = false := by decide

theorem patPC_nonnumeric : ∀ c ∈ patPC, numericChar c = false := by decide

theorem patPRS_nonnumeric : ∀ c ∈ patPRS, numericChar c = false := by decide

/-- Numeric strings contain no braces. -/
theorem no_brace_of_numeric {s : List Char} (h : ∀ c ∈ s, numericChar c = true) :
    '{' ∉ s ∧ '}' ∉ s := by
  constructor
  · intro hm
    have := h _ hm
    exact absurd this (by decide)
  · intro hm
    have := h _ hm
    exact absurd this (by decide)

/-- `{prs}` cannot overlap `{month}`. -/
theorem noOverlap_patM_patPRS : NoOverlap patM patPRS :=
  ⟨by decide, by decide, by decide, by decide⟩

/-- `{prs}` cannot overlap `{percent_creative}`. -/
theorem noOverlap_patPC_patPRS : NoOverlap patPC patPRS :=
  ⟨by decide, by decide, by decide, by decide⟩

/-- `{prs}` cannot overlap `{last_day_of_month}`. -/
theorem noOverlap_patLD_patPRS : NoOverlap patLD patPRS :=
  ⟨by decide, by decide, by decide, by decide⟩

/-- A literal `{prs}` in the row text survives the three later
substitutions. -/
theorem patPRS_preserved_in_body {prsStr mStr pcStr ldStr : List Char}
    (h : patPRS <:+: prsStr) :
    patPRS <:+: renderedBody prsStr mStr pcStr ldStr := by
  unfold renderedBody
  have h2 : patPRS <:+: replaceList patM mStr prsStr :=
    occurrence_preserved (by decide) noOverlap_patM_patPRS prsStr.length prsStr
      (Nat.le_refl _) h
  have h3 : patPRS <:+: replaceList patPC pcStr (replaceList patM mStr prsStr) :=
    occurrence_preserved (by decide) noOverlap_patPC_patPRS _ _ (Nat.le_refl _) h2
  exact occurrence_preserved (by decide) noOverlap_patLD_patPRS _ _ (Nat.le_refl _) h3

/-- Conversely, if the row text contains no `{prs}`, the substituted body
contains none either (the numeric replacement values cannot create
one). -/
theorem patPRS_absent_in_body {prsStr mStr pcStr ldStr : List Char}
    (hm : ∀ c ∈ mStr, numericChar c = true) (hmne : mStr ≠ [])
    (hp : ∀ c ∈ pcStr, numericChar c = true) (hpne : pcStr ≠ [])
    (hl : ∀ c ∈ ldStr, numericChar c = true) (hlne : ldStr ≠ [])
    (h : ¬ patPRS <:+: prsStr) :
    ¬ patPRS <:+: renderedBody prsStr mStr pcStr ldStr := by
  unfold renderedBody
  have h2 : ¬ patPRS <:+: replaceList patM mStr prsStr :=
    no_new_occurrence hmne (disjoint_of_char_classes hm patPRS_nonnumeric) _ _
      (Nat.le_refl _) h
  have h3 : ¬ patPRS <:+: replaceList patPC pcStr (replaceList patM mStr prsStr) :=
    no_new_occurrence hpne (disjoint_of_char_classes hp patPRS_nonnumeric) _ _
      (Nat.le_refl _) h2
  exact no_new_occurrence hlne (disjoint_of_char_classes hl patPRS_nonnumeric) _ _
    (Nat.le_refl _) h3

/-- The rendered body is a contiguous block of the full document. -/
theorem body_infix_of_render {prsStr mStr pcStr ldStr : List Char} :
    renderedBody prsStr mStr pcStr ldStr <:+:
      tmplSeg0.data ++ (ldStr ++ (tmplSeg1.data ++ (ldStr ++ (tmplSeg2.data ++ (mStr ++
        (tmplSeg3.data ++ (renderedBody prsStr mStr pcStr ldStr ++ (tmplSeg4.data ++
        (pcStr ++ (tmplSeg5.data ++ (pcStr ++ (tmplSeg6.data ++ (pcStr ++
        tmplSeg7.data))))))))))))) := by
  refine ⟨tmplSeg0.data ++ (ldStr ++ (tmplSeg1.data ++ (ldStr ++ (tmplSeg2.data ++ (mStr ++
    tmplSeg3.data))))), tmplSeg4.data ++ (pcStr ++ (tmplSeg5.data ++ (pcStr ++
    (tmplSeg6.data ++ (pcStr ++ tmplSeg7.data))))), ?_⟩
  simp [List.append_assoc]

/-- An occurrence of a brace-delimited token in the full document lies in
the rendered body: all other components of the document are brace-free. -/
theorem token_occurrence_in_body {q prsStr mStr pcStr ldStr : List Char}
    (hq : q ≠ []) (hqh : q.head hq = '{') (hqlast : q.getLast hq = '}')
    (hm : ∀ c ∈ mStr, numericChar c = true)
    (hp : ∀ c ∈ pcStr, numericChar c = true)
    (hl : ∀ c ∈ ldStr, numericChar c = true)
    (hocc : q <:+:
      tmplSeg0.data ++ (ldStr ++ (tmplSeg1.data ++ (ldStr ++ (tmplSeg2.data ++ (mStr ++
        (tmplSeg3.data ++ (renderedBody prsStr mStr pcStr ldStr ++ (tmplSeg4.data ++
        (pcStr ++ (tmplSeg5.data ++ (pcStr ++ (tmplSeg6.data ++ (pcStr ++
        tmplSeg7.data)))))))))))))) :
    q <:+: renderedBody prsStr mStr pcStr ldStr := by
  have hskip : ∀ {x y : List Char}, '{' ∉ x → q <:+: x ++ y → q <:+: y := by
    intro x y hx ho
    exact occurrence_skips_left hq (by rwa [hqh]) ho
  have h1 := hskip tmplSeg0_braces.1 hocc
  have h2 := hskip (no_brace_of_numeric hl).1 h1
  have h3 := hskip tmplSeg1_braces.1 h2
  have h4 := hskip (no_brace_of_numeric hl).1 h3
  have h5 := hskip tmplSeg2_braces.1 h4
  have h6 := hskip (no_brace_of_numeric hm).1 h5
  have h7 := hskip tmplSeg3_braces.1 h6
  have hclose : '}' ∉ tmplSeg4.data ++ (pcStr ++ (tmplSeg5.data ++ (pcStr ++
      (tmplSeg6.data ++ (pcStr ++ tmplSeg7.data))))) := by
    intro hmem
    have hpc := (no_brace_of_numeric hp).2
    simp only [List.mem_append] at hmem
    rcases hmem with h | h | h | h | h | h | h
    · exact tmplSeg4_braces.2 h
    · exact hpc h
    · exact tmplSeg5_braces.2 h
    · exact hpc h
    · exact tmplSeg6_braces.2 h
    · exact hpc h
    · exact tmplSeg7_braces.2 h
  exact occurrence_skips_right hq (by rwa [hqlast]) h7

/-! ## From a title occurrence to a document occurrence -/

/-- Pipe-escaping leaves a pipe-free string unchanged. -/
theorem flatMap_no_pipe {q : List Char} (h : ∀ c ∈ q, c ≠ '|') :
    q.flatMap (fun c => if c = '|' then "\\|".data else [c]) = q := by
  induction q with
  | nil => rfl
  | cons c q' ih =>
    rw [List.flatMap_cons, if_neg (h c (List.mem_cons_self c q'))]
    rw [ih (fun e he => h e (List.mem_cons_of_mem c he))]
    rfl

/-- Pipe-escaping preserves occurrences of pipe-free strings. -/
theorem escape_preserves_occurrence {q t : List Char} (hq : ∀ c ∈ q, c ≠ '|')
    (h : q <:+: t) : q <:+: replaceList "|".data "\\|".data t := by
  rw [show replaceList "|".data "\\|".data t =
    t.flatMap (fun c => if c = '|' then "\\|".data else [c]) from
    single_char_replace '|' "\\|".data t]
  obtain ⟨l, r, hlr⟩ := h
  refine ⟨l.flatMap (fun c => if c = '|' then "\\|".data else [c]),
    r.flatMap (fun c => if c = '|' then "\\|".data else [c]), ?_⟩
  rw [← hlr]
  simp only [List.flatMap_append]
  rw [flatMap_no_pipe hq]

/-- The escaped title is a contiguous block of its row. -/
theorem escaped_title_infix_row (idx : Int) (pr : Review) (domain author : List Char) :
    replaceList "|".data "\\|".data pr.title <:+: rowString idx pr domain author := by
  refine ⟨"| ".data ++ intToChars idx ++ " | ".data,
    " | ".data ++ author ++ " | ".data ++
      ("[".data ++ reviewUrl pr domain ++ "](".data ++ reviewUrl pr domain ++ ")".data) ++
      " | ".data ++ statusLabel pr.state ++ " | ".data ++
      formatTimestampDMY pr.created_at ++ " |".data, ?_⟩
  simp [rowString, List.append_assoc]

/-- Every list element appears in its enumeration, at some index. -/
theorem exists_mem_enumFrom {α : Type} {a : α} :
    ∀ (l : List α), a ∈ l → ∀ n : Nat, ∃ i, (i, a) ∈ l.enumFrom n := by
  intro l
  induction l with
  | nil => intro h; cases h
  | cons b l' ih =>
    intro h n
    rcases List.mem_cons.mp h with rfl | hmem
    · exact ⟨n, List.mem_cons_self _ _⟩
    · obtain ⟨i, hi⟩ := ih hmem (n + 1)
      exact ⟨i, List.mem_cons_of_mem _ hi⟩

/-- Every surviving entry of the input list contributes its row to the
rendered rows. -/
theorem row_mem_renderRows {pr : Review} {prs : List Review} (domain author : List Char)
    (hmem : pr ∈ prs) (hstate : pr.state ≠ ReviewState.Deleted) :
    ∃ idx, rowString idx pr domain author ∈ renderRows prs domain author := by
  rw [renderRows_eq]
  obtain ⟨i, hi⟩ := exists_mem_enumFrom prs hmem 0
  refine ⟨Int.ofNat i + 1, ?_⟩
  have hfil : (i, pr) ∈ prs.enum.filter (fun p => p.2.state ≠ ReviewState.Deleted) := by
    rw [List.mem_filter]
    exact ⟨hi, by simp [hstate]⟩
  exact List.mem_map.mpr ⟨(i, pr), hfil, rfl⟩

/-- Core analysis of the final document shared by the placeholder
claims: the three later tokens never survive, the `{prs}` token survives
exactly when the joined row text contains it, and the substituted row
body is a contiguous block of the output. -/
theorem render_no_tokens (prs : List Review) (month : NaiveDate) (pc : Int)
    (domain user : List Char) (out : List Char)
    (h : render_template prs month pc domain user = some out) :
    (¬ patM <:+: out) ∧ (¬ patPC <:+: out) ∧ (¬ patLD <:+: out) ∧
    (¬ patPRS <:+: joinNL (renderRows prs domain user) → ¬ patPRS <:+: out) ∧
    (patPRS <:+: joinNL (renderRows prs domain user) → patPRS <:+: out) ∧
    (∀ ld, last_day_of_month month = some ld →
      renderedBody (joinNL (renderRows prs domain user)) (formatMY month)
        (intToChars pc) (formatDMY ld) <:+: out) := by
  cases hld : last_day_of_month month with
  | none =>
    exfalso
    unfold render_template at h
    rw [hld] at h
    exact Option.noConfusion h
  | some ld =>
    have hout : out = replaceList patLD (formatDMY ld)
        (replaceList patPC (intToChars pc)
          (replaceList patM (formatMY month)
            (replaceList patPRS (joinNL (renderRows prs domain user)) TEMPLATE.data))) := by
      unfold render_template at h
      rw [hld] at h
      exact (Option.some.inj h).symm
    have hmaster := render_template_eq prs month pc domain user ld hld
    rw [h] at hmaster
    have hdecomp := Option.some.inj hmaster
    have hMdisj := disjoint_of_char_classes (formatMY_numeric (d := month)) patM_nonnumeric
    have hPCdisjM := disjoint_of_char_classes (intToChars_numeric (i := pc)) patM_nonnumeric
    have hLDdisjM := disjoint_of_char_classes (formatDMY_numeric (d := ld)) patM_nonnumeric
    have hPCdisj := disjoint_of_char_classes (intToChars_numeric (i := pc)) patPC_nonnumeric
    have hLDdisjPC := disjoint_of_char_classes (formatDMY_numeric (d := ld)) patPC_nonnumeric
    have hLDdisj := disjoint_of_char_classes (formatDMY_numeric (d := ld)) patLD_nonnumeric
    refine ⟨?_, ?_, ?_, ?_, ?_, ?_⟩
    · rw [hout]
      apply no_new_occurrence (formatDMY_ne_nil ld) hLDdisjM _ _ (Nat.le_refl _)
      apply no_new_occurrence (intToChars_ne_nil pc) hPCdisjM _ _ (Nat.le_refl _)
      exact no_self_occurrence (formatMY_ne_nil month) (by decide) hMdisj _ _ (Nat.le_refl _)
    · rw [hout]
      apply no_new_occurrence (formatDMY_ne_nil ld) hLDdisjPC _ _ (Nat.le_refl _)
      exact no_self_occurrence (intToChars_ne_nil pc) (by decide) hPCdisj _ _ (Nat.le_refl _)
    · rw [hout]
      exact no_self_occurrence (formatDMY_ne_nil ld) (by decide) hLDdisj _ _ (Nat.le_refl _)
    · intro hno hocc
      rw [hdecomp] at hocc
      have hbody := token_occurrence_in_body (by decide) (by decide) (by decide)
        (formatMY_numeric (d := month)) (intToChars_numeric (i := pc))
        (formatDMY_numeric (d := ld)) hocc
      exact patPRS_absent_in_body (formatMY_numeric (d := month)) (formatMY_ne_nil month)
        (intToChars_numeric (i := pc)) (intToChars_ne_nil pc)
        (formatDMY_numeric (d := ld)) (formatDMY_ne_nil ld) hno hbody
    · intro hocc
      rw [hdecomp]
      exact (patPRS_preserved_in_body hocc).trans body_infix_of_render
    · intro ld' hld'
      have : ld' = ld := (Option.some.inj hld').symm
      subst this
      rw [hdecomp]
      exact body_infix_of_render

/-! ## Example inputs for the concrete test cases -/

/-- Example domain used in concrete instances. -/
def exDomain : List Char := "example.com".data

/-- Example author display name used in concrete instances. -/
def exAuthor : List Char := "Alice".data

/-- Example project used in concrete instances. -/
def exProject : Project := ⟨"PROJ".data⟩

/-- Example month (February 2024) used in concrete instances. -/
def exMonth : NaiveDate := ⟨2024, 2, 5⟩

/-- The spec's running example: entries with states
`[Opened, Deleted, Closed, Opened]`. -/
def exampleEntries : List Review :=
  [⟨1, "T1".data, ReviewState.Opened, exProject, 0⟩,
   ⟨2, "T2".data, ReviewState.Deleted, exProject, 0⟩,
   ⟨3, "T3".data, ReviewState.Closed, exProject, 0⟩,
   ⟨4, "T4".data, ReviewState.Opened, exProject, 0⟩]

/-- A review whose title is the literal `{prs}` token. -/
def exPrsReview : Review := ⟨7, "{prs}".data, ReviewState.Opened, exProject, 0⟩

/-- A nonempty list whose entries are all `Deleted`, so that zero rows
survive filtering. -/
def exDeletedOnly : List Review := [⟨2, "T2".data, ReviewState.Deleted, exProject, 0⟩]

/-- A review whose title contains both a `{month}` and a `{prs}` token. -/
def exMixReview : Review := ⟨5, "X{month}Y{prs}Z".data, ReviewState.Opened, exProject, 0⟩

/-- A review whose title contains a literal pipe. -/
def exPipeReview : Review := ⟨9, "A|B".data, ReviewState.Opened, exProject, 0⟩

/-- A raw record whose `createdAt` lies outside chrono's valid range. -/
def exBadTs : RawReview := ⟨1, "T".data, "Opened".data, "PROJ".data, maxTimestampMs + 1⟩

/-- A raw record with a lowercase (hence unrecognized) state token. -/
def exBadState : RawReview := ⟨1, "T".data, "opened".data, "PROJ".data, 0⟩

/-- The fully substituted document, as `render_template` produces it
(the right-hand side of `render_template_eq`). -/
def renderedDoc (prs : List Review) (month : NaiveDate) (pc : Int)
    (domain user : List Char) (ld : NaiveDate) : List Char :=
  tmplSeg0.data ++ (formatDMY ld ++ (tmplSeg1.data ++ (formatDMY ld ++ (tmplSeg2.data ++
    (formatMY month ++ (tmplSeg3.data ++
    (renderedBody (joinNL (renderRows prs domain user)) (formatMY month) (intToChars pc)
      (formatDMY ld) ++ (tmplSeg4.data ++ (intToChars pc ++ (tmplSeg5.data ++
    (intToChars pc ++ (tmplSeg6.data ++ (intToChars pc ++ tmplSeg7.data)))))))))))))

/-! ## Claim theorems -/

/-- C1 (counterexample): the claim "each rendered row's index equals the
count of surviving entries processed so far, so indices are densely
1,2,...,k" is false on the code: for input states
`[Opened, Deleted, Closed, Opened]` the code renders exactly 3 rows, but
the second rendered row is indexed 3 (not 2) and the third 4 (not 3),
because `enumerate()` runs before `filter_map` drops `Deleted`
entries. -/
theorem C1_counterexample :
    (renderRows exampleEntries exDomain exAuthor).length = 3 ∧
    "| 1 | ".data <+: (renderRows exampleEntries exDomain exAuthor).getD 0 [] ∧
    ¬ ("| 2 | ".data <+: (renderRows exampleEntries exDomain exAuthor).getD 1 []) ∧
    "| 3 | ".data <+: (renderRows exampleEntries exDomain exAuthor).getD 1 [] ∧
    "| 4 | ".data <+: (renderRows exampleEntries exDomain exAuthor).getD 2 [] := by
  refine ⟨by decide, by decide, by decide, by decide, by decide⟩

/-- C1 (amended): each rendered row's index equals `1 +` the original
position of its entry in the input list — `Deleted` entries are skipped
but still consume an index, so the rendered indices can have gaps; for
the input states `[Opened, Deleted, Closed, Opened]` the output has
exactly 3 rows indexed 1, 3, 4. -/
theorem C1_row_indices :
    (∀ (prs : List Review) (domain author : List Char),
      renderRows prs domain author =
        (prs.enum.filter (fun p => p.2.state ≠ ReviewState.Deleted)).map
          (fun p => rowString (Int.ofNat p.1 + 1) p.2 domain author)) ∧
    (renderRows exampleEntries exDomain exAuthor).length = 3 ∧
    "| 1 | ".data <+: (renderRows exampleEntries exDomain exAuthor).getD 0 [] ∧
    "| 3 | ".data <+: (renderRows exampleEntries exDomain exAuthor).getD 1 [] ∧
    "| 4 | ".data <+: (renderRows exampleEntries exDomain exAuthor).getD 2 [] :=
  ⟨renderRows_eq, by decide, by decide, by decide, by decide⟩

/-- C3: for every year and month 1..=12 (and any day field), the
`end_date` computed by `fetch_prs_for_month` and the date computed by
`last_day_of_month` are both exactly one calendar day before the 1st of
the following month (December rolling over to January of the next
year), which is the last day of the month. -/
theorem C3_end_date :
    ∀ (y : Int) (m d : Nat), 1 ≤ m → m ≤ 12 →
      fetch_prs_for_month_range ⟨y, m, d⟩ = some (⟨y, m, 1⟩, endOfMonth y m) ∧
      last_day_of_month ⟨y, m, d⟩ = some (endOfMonth y m) ∧
      pred_opt (firstOfNextMonth y m) = some (endOfMonth y m) :=
  fun y m d h1 h2 =>
    ⟨fetch_range_eq y m d h1 h2, last_day_of_month_eq ⟨y, m, d⟩ h1 h2,
      pred_next_eq y m h1 h2⟩

theorem C3_end_date_witness :
    1 ≤ 12 ∧ (12 : Nat) ≤ 12 ∧
    (fetch_prs_for_month_range ⟨2023, 12, 5⟩ = some (⟨2023, 12, 1⟩, endOfMonth 2023 12) ∧
      last_day_of_month ⟨2023, 12, 5⟩ = some (endOfMonth 2023 12) ∧
      pred_opt (firstOfNextMonth 2023 12) = some (endOfMonth 2023 12)) :=
  ⟨by decide, by decide, C3_end_date 2023 12 5 (by decide) (by decide)⟩

/-- C4: with no month argument the program selects the calendar month
immediately preceding the current month — `previous_month` returns the
last day of that month; in particular for a current date of 2024-03-15
it returns 2024-02-29 (leap year), and the fetch range for that date is
2024-02-01 to 2024-02-29. -/
theorem C4_previous_month :
    (∀ now : NaiveDate, 1 ≤ now.month → now.month ≤ 12 →
      previous_month now = some (if now.month = 1 then ⟨now.year - 1, 12, 31⟩
        else ⟨now.year, now.month - 1, daysInMonth now.year (now.month - 1)⟩)) ∧
    previous_month ⟨2024, 3, 15⟩ = some ⟨2024, 2, 29⟩ ∧
    fetch_prs_for_month_range ⟨2024, 2, 29⟩ = some (⟨2024, 2, 1⟩, ⟨2024, 2, 29⟩) :=
  ⟨fun now => previous_month_eq now, by decide, by decide⟩

theorem C4_previous_month_witness :
    1 ≤ (3 : Nat) ∧ (3 : Nat) ≤ 12 ∧
    previous_month ⟨2024, 3, 15⟩ =
      some (if (3 : Nat) = 1 then ⟨(2024 : Int) - 1, 12, 31⟩
        else ⟨(2024 : Int), 3 - 1, daysInMonth 2024 (3 - 1)⟩) :=
  ⟨by decide, by decide, C4_previous_month.1 ⟨2024, 3, 15⟩ (by decide) (by decide)⟩

/-- C10: `last_day_of_month` depends only on the year and month of its
argument; it is idempotent (the last day of a month lies in that same
month); and the `fetch_prs_for_month` date range is the same for any two
dates in the same calendar month. -/
theorem C10_month_determines :
    (∀ d d' : NaiveDate, d.year = d'.year → d.month = d'.month →
      last_day_of_month d = last_day_of_month d') ∧
    (∀ d : NaiveDate, 1 ≤ d.month → d.month ≤ 12 →
      (last_day_of_month d).bind last_day_of_month = last_day_of_month d) ∧
    (∀ d d' : NaiveDate, d.year = d'.year → d.month = d'.month →
      fetch_prs_for_month_range d = fetch_prs_for_month_range d') := by
  refine ⟨?_, ?_, ?_⟩
  · intro d d' hy hm
    unfold last_day_of_month
    rw [hy, hm]
  · intro d h1 h2
    rw [last_day_of_month_eq d h1 h2]
    rw [Option.some_bind]
    exact last_day_of_month_eq (endOfMonth d.year d.month) h1 h2
  · intro d d' hy hm
    unfold fetch_prs_for_month_range
    rw [hy, hm]

theorem C10_month_determines_witness :
    ((⟨2024, 5, 1⟩ : NaiveDate).year = (⟨2024, 5, 31⟩ : NaiveDate).year ∧
      (⟨2024, 5, 1⟩ : NaiveDate).month = (⟨2024, 5, 31⟩ : NaiveDate).month) ∧
    last_day_of_month ⟨2024, 5, 1⟩ = last_day_of_month ⟨2024, 5, 31⟩ ∧
    (last_day_of_month ⟨2024, 5, 17⟩).bind last_day_of_month =
      last_day_of_month ⟨2024, 5, 17⟩ ∧
    fetch_prs_for_month_range ⟨2024, 5, 1⟩ = fetch_prs_for_month_range ⟨2024, 5, 31⟩ :=
  ⟨⟨rfl, rfl⟩, C10_month_determines.1 ⟨2024, 5, 1⟩ ⟨2024, 5, 31⟩ rfl rfl,
    C10_month_determines.2.1 ⟨2024, 5, 17⟩ (by decide) (by decide),
    C10_month_determines.2.2 ⟨2024, 5, 1⟩ ⟨2024, 5, 31⟩ rfl rfl⟩

/-- C5: a `createdAt` value outside chrono's valid range makes the whole
response decode fail — no review list is produced, hence no document;
and whenever `parse_timestamp` accepts a value it denotes exactly that
instant (no clamping or wrapping).  The `expect("Invalid timestamp")`
panic inside the deserializer is modelled as a decode failure. -/
theorem C5_invalid_timestamp :
    (∀ ms t : Int, parse_timestamp ms = some t → t = ms) ∧
    (∀ (rs : List RawReview) (r : RawReview), r ∈ rs →
      parse_timestamp r.createdAt = none →
      ∀ l, decodeResponse rs ≠ Except.ok l) := by
  constructor
  · intro ms t h
    unfold parse_timestamp at h
    by_cases hr : minTimestampMs ≤ ms ∧ ms ≤ maxTimestampMs
    · rw [if_pos hr] at h
      exact (Option.some.inj h).symm
    · rw [if_neg hr] at h
      exact Option.noConfusion h
  · intro rs r hmem hbad l hok
    obtain ⟨e, he⟩ :=
      decodeResponse_error_of_mem rs r hmem (decodeReview_fails_of_bad_timestamp r hbad)
    rw [he] at hok
    exact Except.noConfusion hok

theorem C5_invalid_timestamp_witness :
    (parse_timestamp 0 = some 0 ∧ (0 : Int) = 0) ∧
    exBadTs ∈ [exBadTs] ∧ parse_timestamp exBadTs.createdAt = none ∧
    decodeResponse [exBadTs] ≠ Except.ok [] :=
  ⟨⟨by decide, C5_invalid_timestamp.1 0 0 (by decide)⟩,
    List.mem_cons_self _ _, by decide,
    C5_invalid_timestamp.2 [exBadTs] exBadTs (List.mem_cons_self _ _) (by decide) []⟩

/-- C6: a state value outside the three case-sensitive tokens `Opened`,
`Closed`, `Deleted` makes decoding of the entire response fail — no
review list is returned (serde has no partial-success mode). -/
theorem C6_unknown_state :
    ∀ (rs : List RawReview) (r : RawReview), r ∈ rs →
      r.state ≠ "Opened".data → r.state ≠ "Closed".data → r.state ≠ "Deleted".data →
      ∀ l, decodeResponse rs ≠ Except.ok l := by
  intro rs r hmem h1 h2 h3 l hok
  have hst : decodeState r.state = none := (decodeState_none_iff r.state).mpr ⟨h1, h2, h3⟩
  obtain ⟨e, he⟩ :=
    decodeResponse_error_of_mem rs r hmem (decodeReview_fails_of_bad_state r hst)
  rw [he] at hok
  exact Except.noConfusion hok

theorem C6_unknown_state_witness :
    exBadState ∈ [exBadState] ∧
    exBadState.state ≠ "Opened".data ∧ exBadState.state ≠ "Closed".data ∧
    exBadState.state ≠ "Deleted".data ∧
    decodeResponse [exBadState] ≠ Except.ok [] :=
  ⟨List.mem_cons_self _ _, by decide, by decide, by decide,
    C6_unknown_state [exBadState] exBadState (List.mem_cons_self _ _)
      (by decide) (by decide) (by decide) []⟩

/-- C7: the title cell of every rendered row is the title with each
literal pipe character prefixed by a backslash (`str::replace` of `"|"`
by `"\|"` acts pointwise on the characters), and the escaped title
appears verbatim as a contiguous cell of the row; in particular the
title `A|B` renders as `A\|B`. -/
theorem C7_pipe_escape :
    (∀ (idx : Int) (pr : Review) (domain author row : List Char),
      render_pr idx pr domain author = some row →
        replaceList "|".data "\\|".data pr.title =
          pr.title.flatMap (fun c => if c = '|' then "\\|".data else [c]) ∧
        ∃ pre post, row = pre ++ replaceList "|".data "\\|".data pr.title ++ post) ∧
    replaceList "|".data "\\|".data "A|B".data = "A\\|B".data := by
  constructor
  · intro idx pr domain author row h
    constructor
    · exact single_char_replace '|' "\\|".data pr.title
    · rw [render_pr_eq] at h
      by_cases hd : pr.state = ReviewState.Deleted
      · rw [if_pos hd] at h
        exact Option.noConfusion h
      · rw [if_neg hd] at h
        obtain ⟨l, r, hlr⟩ := escaped_title_infix_row idx pr domain author
        exact ⟨l, r, by rw [← (Option.some.inj h), ← hlr]⟩
  · decide

theorem C7_pipe_escape_witness :
    render_pr 1 exPipeReview exDomain exAuthor =
      some (rowString 1 exPipeReview exDomain exAuthor) ∧
    (replaceList "|".data "\\|".data exPipeReview.title =
        exPipeReview.title.flatMap (fun c => if c = '|' then "\\|".data else [c]) ∧
      ∃ pre post, rowString 1 exPipeReview exDomain exAuthor =
        pre ++ replaceList "|".data "\\|".data exPipeReview.title ++ post) :=
  ⟨rfl, C7_pipe_escape.1 1 exPipeReview exDomain exAuthor
    (rowString 1 exPipeReview exDomain exAuthor) rfl⟩

/-- C2 (counterexample): the claim "for every input the rendered
document contains no occurrence of any placeholder token" is false: a
review whose title is the literal text `{prs}` survives into the final
document, because `{prs}` is substituted first and never rescanned. -/
theorem C2_counterexample :
    (render_template [exPrsReview] exMonth 80 exDomain exAuthor).isSome = true ∧
    patPRS <:+: (render_template [exPrsReview] exMonth 80 exDomain exAuthor).getD [] := by
  have h := render_template_eq [exPrsReview] exMonth 80 exDomain exAuthor
    (endOfMonth 2024 2) (by decide)
  rw [h]
  refine ⟨rfl, ?_⟩
  rw [Option.getD_some]
  have hrow : patPRS <:+: joinNL (renderRows [exPrsReview] exDomain exAuthor) := by decide
  exact (patPRS_preserved_in_body hrow).trans body_infix_of_render

/-- C2 (amended): every placeholder occurrence originating in the
template is replaced: the rendered document never contains `{month}`,
`{percent_creative}` or `{last_day_of_month}` (even when a title carried
them, they are substituted); and it contains `{prs}` only when the joined
row text built from the input (e.g. a title) itself contains the literal
`{prs}`. -/
theorem C2_placeholders_replaced (prs : List Review) (month : NaiveDate) (pc : Int)
    (domain user out : List Char)
    (h : render_template prs month pc domain user = some out) :
    (¬ patM <:+: out) ∧ (¬ patPC <:+: out) ∧ (¬ patLD <:+: out) ∧
    (¬ patPRS <:+: joinNL (renderRows prs domain user) → ¬ patPRS <:+: out) :=
  have r := render_no_tokens prs month pc domain user out h
  ⟨r.1, r.2.1, r.2.2.1, r.2.2.2.1⟩

theorem C2_placeholders_replaced_witness :
    (render_template [] exMonth 80 exDomain exAuthor =
      some (renderedDoc [] exMonth 80 exDomain exAuthor (endOfMonth 2024 2))) ∧
    (¬ patM <:+: renderedDoc [] exMonth 80 exDomain exAuthor (endOfMonth 2024 2)) ∧
    (¬ patPC <:+: renderedDoc [] exMonth 80 exDomain exAuthor (endOfMonth 2024 2)) ∧
    (¬ patLD <:+: renderedDoc [] exMonth 80 exDomain exAuthor (endOfMonth 2024 2)) :=
  have h : render_template [] exMonth 80 exDomain exAuthor =
      some (renderedDoc [] exMonth 80 exDomain exAuthor (endOfMonth 2024 2)) :=
    render_template_eq [] exMonth 80 exDomain exAuthor (endOfMonth 2024 2) (by decide)
  have r := C2_placeholders_replaced [] exMonth 80 exDomain exAuthor
    (renderedDoc [] exMonth 80 exDomain exAuthor (endOfMonth 2024 2)) h
  ⟨h, r.1, r.2.1, r.2.2.1⟩

/-- C8: whenever zero rows survive filtering — the empty review list,
and more generally any input all of whose entries are dropped —
rendering succeeds, and the document it produces is the template with an
empty table body at the `{prs}` position (the segment before it is
directly followed by the segment after it) while all eight template
segments survive verbatim with the other three placeholders
substituted. -/
theorem C8_empty_rendering :
    ∀ (prs : List Review) (month : NaiveDate) (pc : Int) (domain user : List Char),
      renderRows prs domain user = [] →
      1 ≤ month.month → month.month ≤ 12 →
      render_template prs month pc domain user = some (
        tmplSeg0.data ++ (formatDMY (endOfMonth month.year month.month) ++ (tmplSeg1.data ++
        (formatDMY (endOfMonth month.year month.month) ++ (tmplSeg2.data ++ (formatMY month ++
        (tmplSeg3.data ++ (tmplSeg4.data ++ (intToChars pc ++ (tmplSeg5.data ++
        (intToChars pc ++ (tmplSeg6.data ++ (intToChars pc ++
        tmplSeg7.data))))))))))))) := by
  intro prs month pc domain user hrows h1 h2
  have hld := last_day_of_month_eq month h1 h2
  have h := render_template_eq prs month pc domain user (endOfMonth month.year month.month) hld
  rw [h]
  have hjoin : joinNL (renderRows prs domain user) = [] := by
    rw [hrows]; rfl
  have hbody : renderedBody (joinNL (renderRows prs domain user)) (formatMY month)
      (intToChars pc) (formatDMY (endOfMonth month.year month.month)) = [] := by
    rw [hjoin]; rfl
  rw [hbody]
  simp

theorem C8_empty_rendering_witness :
    renderRows exDeletedOnly exDomain exAuthor = [] ∧
    1 ≤ exMonth.month ∧ exMonth.month ≤ 12 ∧
    render_template exDeletedOnly exMonth 80 exDomain exAuthor = some (
      tmplSeg0.data ++ (formatDMY (endOfMonth exMonth.year exMonth.month) ++ (tmplSeg1.data ++
      (formatDMY (endOfMonth exMonth.year exMonth.month) ++ (tmplSeg2.data ++
      (formatMY exMonth ++ (tmplSeg3.data ++ (tmplSeg4.data ++ (intToChars 80 ++
      (tmplSeg5.data ++ (intToChars 80 ++ (tmplSeg6.data ++ (intToChars 80 ++
      tmplSeg7.data))))))))))))) :=
  ⟨by decide, by decide, by decide,
    C8_empty_rendering exDeletedOnly exMonth 80 exDomain exAuthor (by decide)
      (by decide) (by decide)⟩

/-- C9: because `{prs}` is substituted before the other three
placeholders, the final document contains the joined row text with
`{month}`, `{percent_creative}` and `{last_day_of_month}` substituted
inside it as well (so such tokens inside a title are replaced by the
corresponding values), none of those three tokens survives anywhere in
the document, and a literal `{prs}` inside the title of a surviving
entry survives verbatim into the document. -/
theorem C9_substitution_order :
    ∀ (prs : List Review) (month : NaiveDate) (pc : Int) (domain user : List Char)
      (ld : NaiveDate) (out : List Char),
      last_day_of_month month = some ld →
      render_template prs month pc domain user = some out →
      (renderedBody (joinNL (renderRows prs domain user)) (formatMY month)
        (intToChars pc) (formatDMY ld) <:+: out) ∧
      (¬ patM <:+: out) ∧ (¬ patPC <:+: out) ∧ (¬ patLD <:+: out) ∧
      (∀ pr ∈ prs, pr.state ≠ ReviewState.Deleted → patPRS <:+: pr.title →
        patPRS <:+: out) := by
  intro prs month pc domain user ld out hld h
  have r := render_no_tokens prs month pc domain user out h
  refine ⟨r.2.2.2.2.2 ld hld, r.1, r.2.1, r.2.2.1, ?_⟩
  intro pr hmem hstate htitle
  apply r.2.2.2.2.1
  have hesc : patPRS <:+: replaceList "|".data "\\|".data pr.title :=
    escape_preserves_occurrence (by decide) htitle
  obtain ⟨idx, hrow⟩ := row_mem_renderRows domain user hmem hstate
  exact (hesc.trans (escaped_title_infix_row idx pr domain user)).trans
    (mem_joinNL _ _ hrow)

theorem C9_substitution_order_witness :
    last_day_of_month exMonth = some (endOfMonth 2024 2) ∧
    (render_template [exMixReview] exMonth 80 exDomain exAuthor =
      some (renderedDoc [exMixReview] exMonth 80 exDomain exAuthor (endOfMonth 2024 2))) ∧
    exMixReview ∈ [exMixReview] ∧ exMixReview.state ≠ ReviewState.Deleted ∧
    patPRS <:+: exMixReview.title ∧
    patPRS <:+: renderedDoc [exMixReview] exMonth 80 exDomain exAuthor (endOfMonth 2024 2) :=
  have hld : last_day_of_month exMonth = some (endOfMonth 2024 2) := by decide
  have h : render_template [exMixReview] exMonth 80 exDomain exAuthor =
      some (renderedDoc [exMixReview] exMonth 80 exDomain exAuthor (endOfMonth 2024 2)) :=
    render_template_eq [exMixReview] exMonth 80 exDomain exAuthor (endOfMonth 2024 2) hld
  ⟨hld, h, List.mem_cons_self _ _, by decide, by decide,
    (C9_substitution_order [exMixReview] exMonth 80 exDomain exAuthor (endOfMonth 2024 2)
        (renderedDoc [exMixReview] exMonth 80 exDomain exAuthor (endOfMonth 2024 2))
        hld h).2.2.2.2
      exMixReview (List.mem_cons_self _ _) (by decide) (by decide)⟩

end Kuper
